import Mathlib

/-!
Verification of the ssss semantic-search indexing engine against its
specification.  The Go sources are shallowly embedded: strings are lists of
characters, SQLite tables are lists of rows, float arithmetic is idealized
over the rationals, and each operation of the engine is a pure Lean function
translated from the corresponding Go function.
-/

/-- Strings of the Go program are modelled as lists of characters. -/
abbrev Str := List Char

/-- Characters of a Lean string literal, used to write concrete inputs. -/
def str (s : String) : Str := s.data

/-- Models Go `strings.Contains`: `needle` occurs contiguously in `hay`. -/
def strContains (hay needle : Str) : Bool :=
  if needle.isPrefixOf hay then true
  else
    match hay with
    | [] => false
    | _ :: t => strContains t needle

/-- Models Go `strings.ToLower` restricted to ASCII letters. -/
def toLowerStr (s : Str) : Str := s.map Char.toLower

/-- Models Go `strings.TrimSpace` (ASCII whitespace). -/
def trimStr (s : Str) : Str :=
  ((s.dropWhile Char.isWhitespace).reverse.dropWhile Char.isWhitespace).reverse

/-- Models Go `strings.Split` on a single separator character: the list of
separated pieces, empty pieces included. -/
def splitOnChar (sep : Char) : Str → List Str
  | [] => [[]]
  | c :: t =>
    let r := splitOnChar sep t
    if c = sep then [] :: r
    else
      match r with
      | h :: t2 => (c :: h) :: t2
      | [] => [[c]]

/-- Splitting at every whitespace character (empty pieces included). -/
def splitByWs : Str → List Str
  | [] => [[]]
  | c :: t =>
    let r := splitByWs t
    if c.isWhitespace then [] :: r
    else
      match r with
      | h :: t2 => (c :: h) :: t2
      | [] => [[c]]

/-- Models Go `strings.Fields`: maximal runs of non-whitespace
characters, i.e. the nonempty pieces of the whitespace split. -/
def fieldsStr (s : Str) : List Str :=
  (splitByWs s).filter fun p => !p.isEmpty

/-! ### Embedder: vector normalization (indexer/embedder.go) -/

/-- The running sum `sum += float64(val) * float64(val)` of
`normalizeVector`: the squared L2 norm, idealized over the rationals. -/
def normSq (v : List ℚ) : ℚ := (v.map (fun x => x * x)).sum

/-- Models `indexer.normalizeVector`.  The Go code computes
`norm := math.Sqrt(sum)`; exact arithmetic has no computable square root, so
the caller supplies `norm`, constrained in the theorems to be the
nonnegative exact square root of `normSq v`.  The `norm == 0` early return
of the source is kept verbatim. -/
def normalizeVector (v : List ℚ) (norm : ℚ) : List ℚ :=
  if norm = 0 then v else v.map (fun x => x / norm)

/-! ### Store: open-time schema and dimension migration (store/store.go) -/

/-- A row of the `file_hashes` table. -/
structure HashRow where
  project_path : Str
  file_path : Str
  hash : Str
deriving DecidableEq, Repr

/-- A row of the `chunks` table. -/
structure ChunkRow where
  id : Str
  absolute_path : Str
  chunk_type : Str
  name : Str
  language : Str
  start_line : Int
  end_line : Int
  raw_content : Str
  calls : Str
  refs : Str
  is_exported : Bool
  is_test : Bool
  parent : Str
deriving DecidableEq, Repr

/-- The durable tables of the SQLite store.  `storeConfigDim` is the
`embedding_dimension` row of `store_config`; `vecChunks` holds the vec0
rows keyed by rowid; `vecChunkMap` maps chunk ids to vec rowids. -/
structure StoreTables where
  storeConfigDim : Option Nat
  chunks : List ChunkRow
  vecChunks : List (Nat × List ℚ)
  vecChunkMap : List (Str × Nat)
  fileHashes : List HashRow
deriving DecidableEq, Repr

/-- Models `Store.checkAndUpdateDimension`: reads the persisted dimension,
stores the detected one on first run, updates it on mismatch; returns
whether the dimension changed together with the updated tables. -/
def checkAndUpdateDimension (embeddingDim : Nat) (db : StoreTables) :
    Bool × StoreTables :=
  match db.storeConfigDim with
  | none => (false, { db with storeConfigDim := some embeddingDim })
  | some stored =>
    if stored ≠ embeddingDim then
      (true, { db with storeConfigDim := some embeddingDim })
    else (false, db)

/-- Models `Store.initSchema`: after `checkAndUpdateDimension`, a changed
dimension drops `vec_chunks`, `vec_chunk_map` and deletes `chunks`; the
`file_hashes` table is not touched by this branch. -/
def initSchema (embeddingDim : Nat) (db : StoreTables) : StoreTables :=
  let r := checkAndUpdateDimension embeddingDim db
  if r.1 then { r.2 with vecChunks := [], vecChunkMap := [], chunks := [] }
  else r.2

/-! ### Chunker: oversized-symbol splitting (parser section of the chunker) -/

/-- Models Go `strings.Join(xs, "\n")`. -/
def joinLines : List Str → Str
  | [] => []
  | [x] => x
  | x :: t => x ++ '\n' :: joinLines t

/-- A `types.Chunk` as produced by the chunker.  The `id` is assigned later
by `GenerateChunkID`; it is modelled as the (collision-free) pair of the
absolute path and the chunk index. -/
structure Chunk where
  id : Str × Nat := (([] : Str), 0)
  content : Str
  type : Str
  name : Str
  language : Str := []
  filePath : Str := []
  startLine : Int
  endLine : Int
  calls : List Str := []
  references : List Str := []
  isExported : Bool := false
  isTest : Bool := false
  parent : Str := []
deriving DecidableEq, Repr

/-- A tree-sitter `SymbolInfo` (the fields `splitLargeSymbol` reads). -/
structure SymbolInfo where
  name : Str
  type : Str
  startLine : Int
  endLine : Int
  content : Str
  isExported : Bool
  calls : List Str
  references : List Str
  parent : Str
deriving DecidableEq, Repr

/-- Start indices visited by the window loop of `splitLargeSymbol`
(`for i := 0; i < len(lines); i += max - overlap` with a break once a
window reaches the end).  The fuel argument only bounds the recursion; with
`1 ≤ step` the loop terminates before `len` iterations, so
`splitStarts` below is exact.  (With `step = 0` the Go loop never
terminates; the model is only used under `overlap < maxChunk`.) -/
def splitStartsAux (maxChunk step len : Nat) : Nat → Nat → List Nat
  | 0, i => [i]
  | fuel + 1, i =>
    if len ≤ i + maxChunk then [i]
    else i :: splitStartsAux maxChunk step len fuel (i + step)

/-- The start indices of the windows emitted by `splitLargeSymbol`. -/
def splitStarts (len maxChunk step : Nat) : List Nat :=
  splitStartsAux maxChunk step len len 0

/-- One window chunk of `splitLargeSymbol` at start index `i`: the window
`lines[i : i+maxChunk]`, part number `i/(maxChunk-overlap) + 1`, and the
name suffix ` (part N)` applied whenever `partNum > 1 || endLine <
len(lines)`. -/
def windowChunk (lines : List Str) (maxChunk overlap : Nat)
    (sym : SymbolInfo) (language : Str) (isTestFile : Bool) (i : Nat) :
    Chunk :=
  let endLine := min (i + maxChunk) lines.length
  let partNum := i / (maxChunk - overlap) + 1
  { content := joinLines ((lines.drop i).take maxChunk)
    type := sym.type
    name :=
      if 1 < partNum ∨ endLine < lines.length then
        sym.name ++ str " (part " ++ [Char.ofNat (48 + partNum)] ++ str ")"
      else sym.name
    language := language
    startLine := sym.startLine + i
    endLine := sym.startLine + endLine - 1
    calls := sym.calls
    references := sym.references
    isExported := sym.isExported
    isTest := isTestFile
    parent := sym.parent }

/-- Models `Chunker.splitLargeSymbol`: split the symbol's lines into
overlapping windows of `maxChunk` lines stepping by `maxChunk - overlap`. -/
def splitLargeSymbol (maxChunk overlap : Nat) (sym : SymbolInfo)
    (language : Str) (isTestFile : Bool) : List Chunk :=
  let lines := splitOnChar '\n' sym.content
  (splitStarts lines.length maxChunk (maxChunk - overlap)).map
    (windowChunk lines maxChunk overlap sym language isTestFile)

/-! ### Watcher: event accumulation and debounced flush (tools.go) -/

/-- The `fsnotify.Create` operation bit. -/
def opCreate : Nat := 1

/-- The `fsnotify.Write` operation bit. -/
def opWrite : Nat := 2

/-- The `fsnotify.Remove` operation bit. -/
def opRemove : Nat := 4

/-- The `fsnotify.Rename` operation bit. -/
def opRename : Nat := 8

/-- The `fsnotify.Chmod` operation bit. -/
def opChmod : Nat := 16

/-- Models `fsnotify.Op.Has`. -/
def opHas (o h : Nat) : Bool := o &&& h != 0

/-- A filesystem event as delivered to `Watcher.handleEvent`. -/
structure FsEvent where
  name : Str
  op : Nat
deriving DecidableEq, Repr

/-- The watcher's environment: the outcome of the `os.Stat` directory probe
on a Create event, `shouldExcludeDir`, and `shouldProcessFile`. -/
structure WatchEnv where
  statIsDir : Str → Bool
  excludeDir : Str → Bool
  shouldProcessFile : Str → Bool

/-- Mutable state of a `Watcher`: the pending map accumulated between
flushes and the set of watched directories. -/
structure WatchState where
  pending : List (Str × Nat)
  watchedDir : List Str

/-- Map assignment `m[k] = v` on an association list. -/
def setKey (m : List (Str × Nat)) (k : Str) (v : Nat) : List (Str × Nat) :=
  (m.filter fun p => decide (p.1 ≠ k)) ++ [(k, v)]

/-- Map lookup on an association list. -/
def getKey (m : List (Str × Nat)) (k : Str) : Option Nat :=
  (m.find? fun p => decide (p.1 = k)).map (fun p => p.2)

/-- Membership in the watched-directory set. -/
def dirMem (l : List Str) (x : Str) : Bool := l.any fun d => decide (d = x)

/-- Models `Watcher.handleEvent`: a Create on a directory only adjusts the
watch set; a Remove/Rename is queued with a high bit marking watched
directories; a Write/Create on a file passes `shouldProcessFile` before
being queued; each queued event overwrites `pending[path]`. -/
def handleEvent (env : WatchEnv) (s : WatchState) (e : FsEvent) :
    WatchState :=
  if opHas e.op opCreate && env.statIsDir e.name then
    if !env.excludeDir e.name then
      { s with watchedDir := s.watchedDir ++ [e.name] }
    else s
  else if opHas e.op opRemove || opHas e.op opRename then
    let isDir := dirMem s.watchedDir e.name
    let s1 :=
      if isDir then
        { s with watchedDir := s.watchedDir.filter fun d =>
            decide (d ≠ e.name) }
      else s
    { s1 with
      pending := setKey s1.pending e.name
        (if isDir then e.op ||| 256 else e.op) }
  else if (opHas e.op opWrite || opHas e.op opCreate) &&
      !env.shouldProcessFile e.name then
    s
  else { s with pending := setKey s.pending e.name e.op }

/-- The action `flushPending` performs for one pending entry. -/
inductive WAction where
  | update
  | deleteFile
  | deleteFolder
  | skip
deriving DecidableEq, Repr

/-- Models the per-entry decision of `Watcher.flushPending`: clear the
directory marker bit, then Remove/Rename wins over Write/Create. -/
def flushDecision (op : Nat) : WAction :=
  let isDir := op &&& 256 != 0
  let op2 := op &&& 255
  if opHas op2 opRemove || opHas op2 opRename then
    if isDir then WAction.deleteFolder else WAction.deleteFile
  else if opHas op2 opWrite || opHas op2 opCreate then WAction.update
  else WAction.skip

/-- The action `flushPending` performs for path `p` in state `s`. -/
def flushActionFor (s : WatchState) (p : Str) : WAction :=
  match getKey s.pending p with
  | none => WAction.skip
  | some op => flushDecision op

/-- Whether `handleEvent` queues the event into the pending map: it is not
a Create of an existing directory, and a Write/Create passes the
`shouldProcessFile` filter. -/
def queues (env : WatchEnv) (e : FsEvent) : Bool :=
  !(opHas e.op opCreate && env.statIsDir e.name) &&
    ((opHas e.op opRemove || opHas e.op opRename) ||
      !((opHas e.op opWrite || opHas e.op opCreate) &&
        !env.shouldProcessFile e.name))

/-- A watcher environment for a plain watched source tree: no directories
appear at event paths and every file passes the filters. -/
def plainEnv : WatchEnv :=
  { statIsDir := fun _ => false
    excludeDir := fun _ => false
    shouldProcessFile := fun _ => true }

/-! ### Store: FindCallers and FindCallersDeep (store/store.go) -/

/-- A `types.CallerInfo` row returned by the caller queries. -/
structure CallerInfo where
  name : Str
  filePath : Str
  line : Int
  language : Str
  isTest : Bool
  parent : Str
deriving DecidableEq, Repr

/-- Models SQLite `column LIKE prefix-pattern-suffix`: ASCII
case-insensitive substring containment. -/
def likeContains (s pat : Str) : Bool :=
  strContains (toLowerStr s) (toLowerStr pat)

/-- Models SQLite `column LIKE pattern-then-suffix` with a trailing
wildcard only: ASCII case-insensitive prefix test. -/
def likeStartsWith (s pat : Str) : Bool :=
  (toLowerStr pat).isPrefixOf (toLowerStr s)

/-- The optional `absolute_path LIKE pathPrefix-wildcard` scope filter of
`FindCallers`. -/
def scopeOk (pathScope : Option Str) (r : ChunkRow) : Bool :=
  match pathScope with
  | none => true
  | some p => likeStartsWith r.absolute_path p

/-- The SQL row prefilter of `FindCallers`: `calls LIKE ?` plus the
optional path scope. -/
def rowPrefilter (sym : Str) (pathScope : Option Str) (r : ChunkRow) :
    Bool :=
  likeContains r.calls sym && scopeOk pathScope r

/-- The Go verification step of `FindCallers`: the comma-separated call
list contains a trimmed entry equal to the symbol or ending in
`"." + symbol`. -/
def callsEntryMatch (calls sym : Str) : Bool :=
  (splitOnChar ',' calls).any fun e =>
    decide (trimStr e = sym) || ('.' :: sym).isSuffixOf (trimStr e)

/-- The `CallerInfo` built from a matching chunk row. -/
def mkCallerInfo (r : ChunkRow) : CallerInfo :=
  { name := r.name
    filePath := r.absolute_path
    line := r.start_line
    language := r.language
    isTest := r.is_test
    parent := r.parent }

/-- The scanning loop of `FindCallers` over the prefiltered rows:
skip empty call lists, verify the parsed call list, deduplicate by caller
name, and stop once `maxResults` callers are collected. -/
def findCallersLoop (sym : Str) (mr : Nat) (acc : List CallerInfo)
    (seen : List Str) : List ChunkRow → List CallerInfo
  | [] => acc
  | r :: rest =>
    if decide (r.calls = []) then findCallersLoop sym mr acc seen rest
    else if !callsEntryMatch r.calls sym then
      findCallersLoop sym mr acc seen rest
    else if seen.any (fun n => decide (n = r.name)) then
      findCallersLoop sym mr acc seen rest
    else
      let acc2 := acc ++ [mkCallerInfo r]
      if mr ≤ acc2.length then acc2
      else findCallersLoop sym mr acc2 (seen ++ [r.name]) rest

/-- The `maxResults <= 0` default of `FindCallers` (50). -/
def mrOf (maxResults : Int) : Nat :=
  if maxResults ≤ 0 then 50 else maxResults.toNat

/-- Models `Store.FindCallers`: default the result cap, scan the rows
matching the SQL prefilter up to `LIMIT maxResults*3`, and run the
verification loop. -/
def findCallers (tbl : List ChunkRow) (sym : Str) (maxResults : Int)
    (pathScope : Option Str) : List CallerInfo :=
  let mr := mrOf maxResults
  let rows := (tbl.filter (rowPrefilter sym pathScope)).take (mr * 3)
  findCallersLoop sym mr [] [] rows

/-- First-occurrence deduplication of chunk rows by `name`. -/
def dedupRows (seen : List Str) : List ChunkRow → List ChunkRow
  | [] => []
  | r :: rest =>
    if seen.any (fun n => decide (n = r.name)) then dedupRows seen rest
    else r :: dedupRows (seen ++ [r.name]) rest

/-- The claim's description of FindCallers, written from the spec's words:
all in-scope rows whose parsed call list contains the symbol exactly or
with a dotted suffix, deduplicated by caller name, truncated at the cap. -/
def claimFindCallers (tbl : List ChunkRow) (sym : Str) (mr : Nat)
    (pathScope : Option Str) : List CallerInfo :=
  ((dedupRows []
      (tbl.filter fun r => scopeOk pathScope r && callsEntryMatch r.calls
        sym)).map mkCallerInfo).take mr

/-- One symbol-expansion pass of `FindCallersDeep`: append the unseen
callers of each symbol of the current level, recording the next level's
symbols and the updated seen set. -/
def addCallers : List CallerInfo → List Str →
    List CallerInfo × List Str × List Str
  | [], seen => ([], [], seen)
  | c :: rest, seen =>
    if seen.any (fun n => decide (n = c.name)) then addCallers rest seen
    else
      let r := addCallers rest (seen ++ [c.name])
      (c :: r.1, c.name :: r.2.1, r.2.2)

/-- The per-level loop body of `FindCallersDeep`: run `FindCallers` for
every symbol of the current level with the per-level cap. -/
def levelPass (tbl : List ChunkRow) (cap : Int) (pathScope : Option Str) :
    List Str → List Str → List CallerInfo × List Str × List Str
  | [], seen => ([], [], seen)
  | s :: rest, seen =>
    let callers := findCallers tbl s cap pathScope
    let a := addCallers callers seen
    let b := levelPass tbl cap pathScope rest a.2.2
    (a.1 ++ b.1, a.2.1 ++ b.2.1, b.2.2)

/-- The level iteration of `FindCallersDeep`; a level with no callers is
not recorded and ends the traversal (its next-symbol list is empty). -/
def deepLoop (tbl : List ChunkRow) (cap : Int) (pathScope : Option Str) :
    Nat → List Str → List Str → List (List CallerInfo)
  | 0, _, _ => []
  | d + 1, current, seen =>
    let p := levelPass tbl cap pathScope current seen
    if p.1 = [] then []
    else p.1 :: deepLoop tbl cap pathScope d p.2.1 p.2.2

/-- Models `Store.FindCallersDeep`: default depth 3 and per-level cap 10,
then breadth-first expansion from the symbol, levels returned in order
(index `k` holds level `k+1`). -/
def findCallersDeep (tbl : List ChunkRow) (sym : Str)
    (depth maxPerLevel : Int) (pathScope : Option Str) :
    List (List CallerInfo) :=
  let d : Nat := if depth ≤ 0 then 3 else depth.toNat
  let cap : Int := if maxPerLevel ≤ 0 then 10 else maxPerLevel
  deepLoop tbl cap pathScope d [sym] [sym]

/-- A chunk row for a function `nm` whose calls column is `cl`. -/
def crow (nm cl : String) : ChunkRow :=
  { id := str nm
    absolute_path := str ("/p/" ++ nm)
    chunk_type := str "function"
    name := str nm
    language := str "go"
    start_line := 1
    end_line := 2
    raw_content := str ""
    calls := str cl
    refs := str ""
    is_exported := false
    is_test := false
    parent := str "" }

/-- A chunks table on which the `LIMIT maxResults*3` prefilter starves a
genuine caller: three rows whose calls merely contain `f` as a substring
come first, the only true caller of `f` comes last. -/
def cexLikeTable : List ChunkRow :=
  [crow "n1" "foo", crow "n2" "foo", crow "n3" "foo", crow "g" "f"]

/-- A call graph on which one level of `FindCallersDeep` exceeds the
per-level cap: `S` is called by `A` and `B`; `A` by `C` and `D`; `B` by
`E` and `F`. -/
def cexDeepTable : List ChunkRow :=
  [crow "A" "S", crow "B" "S", crow "C" "A", crow "D" "A",
   crow "E" "B", crow "F" "B"]

/-- A concrete burst of events on one file: a Remove (op 4) followed by a
Write (op 2), as when an editor deletes and immediately recreates a file
within the same debounce window. -/
def cexBurst : List FsEvent :=
  [FsEvent.mk (str "/r/a.go") 4, FsEvent.mk (str "/r/a.go") 2]

/-- A concrete three-line extracted symbol used as a test input. -/
def symEx : SymbolInfo :=
  { name := str "X"
    type := str "function"
    startLine := 10
    endLine := 12
    content := str "a\nb\nc"
    isExported := true
    calls := [str "g"]
    references := [str "T"]
    parent := str "P" }

/-! ### Store: Search result pipeline (store/store.go) -/

/-- A candidate produced by the k-NN stage of `Search`: a chunk row joined
through `vec_chunk_map` with its cosine distance.  The vector search itself
is the sqlite-vec extension, treated as the environment. -/
structure VecCandidate where
  row : ChunkRow
  distance : ℚ
deriving DecidableEq, Repr

/-- The Search filter options (`types.SearchOptions`).  The `Path` option
of the source is compiled by `Search` into either a cleaned absolute
prefix test or a glob match; the compiled per-path predicate is carried
here as `pathOk` (`none` when no path filter was given). -/
structure SearchOpts where
  pathOk : Option (Str → Bool)
  language : Str
  chunkType : Str
  codeOnly : Bool
  minSimilarity : ℚ
  limit : Int

/-- A search result row (`types.SearchResult`). -/
structure SearchResult where
  filePath : Str
  absolutePath : Str
  chunkType : Str
  name : Str
  startLine : Int
  endLine : Int
  content : Str
  similarity : ℚ
  language : Str
deriving DecidableEq, Repr

/-- The `types.NonCodeLanguages` set. -/
def nonCodeLanguages : List Str :=
  [str "json", str "yaml", str "toml", str "markdown", str "xml",
   str "html", str "css", str "dockerfile", str "plaintext"]

/-- The keyword-boost step of `Search`: when the query has terms and the
candidate has a name, add `matchCount/T * 0.3` and clamp at 1. -/
def boostedSim (queryTerms : List Str) (name : Str) (similarity : ℚ) :
    ℚ :=
  if queryTerms.length ≠ 0 ∧ name ≠ [] then
    let matchCount := (queryTerms.filter fun t =>
      strContains (toLowerStr name) t).length
    if 0 < matchCount then
      let b := similarity +
        (matchCount : ℚ) / (queryTerms.length : ℚ) * (3/10)
      if 1 < b then 1 else b
    else similarity
  else similarity

/-- The per-candidate body of `Search`'s result loop: similarity
conversion, the filter chain (each `continue` returns `none`), relative
path computation against `cwd` via `relFn` (modelling `filepath.Rel`), and
the keyword boost. -/
def searchRow (queryTerms : List Str) (opts : SearchOpts) (cwd : Str)
    (relFn : Str → Option Str) (c : VecCandidate) : Option SearchResult :=
  let similarity : ℚ := 1 - c.distance
  let languageFilter := toLowerStr opts.language
  let chunkTypeFilter := toLowerStr opts.chunkType
  if 0 < opts.minSimilarity ∧ similarity < opts.minSimilarity then none
  else if languageFilter ≠ [] ∧
      toLowerStr c.row.language ≠ languageFilter then none
  else if opts.codeOnly ∧
      nonCodeLanguages.contains (toLowerStr c.row.language) then none
  else if chunkTypeFilter ≠ [] ∧ chunkTypeFilter ≠ str "all" ∧
      toLowerStr c.row.chunk_type ≠ chunkTypeFilter then none
  else if (match opts.pathOk with
    | some f => !f c.row.absolute_path
    | none => false) then none
  else
    let rel? : Option Str :=
      if cwd ≠ [] then relFn c.row.absolute_path else some []
    match rel? with
    | none => none
    | some rel =>
      if cwd ≠ [] ∧ opts.pathOk.isNone ∧ (str "..").isPrefixOf rel then
        none
      else
        let relativePath :=
          if cwd ≠ [] then str "./" ++ rel else c.row.absolute_path
        some
          { filePath := relativePath
            absolutePath := c.row.absolute_path
            chunkType := c.row.chunk_type
            name := c.row.name
            startLine := c.row.start_line
            endLine := c.row.end_line
            content := c.row.raw_content
            similarity := boostedSim queryTerms c.row.name similarity
            language := c.row.language }

/-- Models `Store.Search` after the k-NN stage: build the filtered boosted
results, re-sort by descending boosted similarity, and trim to the
(defaulted) limit. -/
def searchStore (rows : List VecCandidate) (query : Str) (cwd : Str)
    (relFn : Str → Option Str) (opts : SearchOpts) : List SearchResult :=
  let limit : Int := if opts.limit ≤ 0 then 5 else opts.limit
  let queryTerms := fieldsStr (toLowerStr query)
  let results := rows.filterMap (searchRow queryTerms opts cwd relFn)
  (results.mergeSort fun a b =>
    decide (b.similarity ≤ a.similarity)).take limit.toNat

/-- A one-candidate k-NN result used as a test input. -/
def cexSearchRows : List VecCandidate :=
  [VecCandidate.mk (crow "greet" "") (1/2)]

/-- Unfiltered search options used as a test input. -/
def cexSearchOpts : SearchOpts :=
  { pathOk := none
    language := []
    chunkType := []
    codeOnly := false
    minSimilarity := 0
    limit := 5 }

/-! ### Indexer: the incremental indexing state machine
(indexer/embedder.go, indexer/scanner.go, store/metadata.go, and the
line-based chunker fallback of the chunker). -/

/-- A file of the scanned tree: absolute path plus raw content.  The
scanner's `file.Hash` is the SHA-256 of the raw content; the hash function
is idealized as the identity on contents (injective, which is all the code
relies on). -/
structure FsFile where
  path : Str
  content : Str
deriving DecidableEq, Repr

/-- Models scanner `IsBinaryFile`: a NUL byte within the first 512 bytes. -/
def isBinaryFile (content : Str) : Bool :=
  (content.take 512).any fun b => decide (b = Char.ofNat 0)

/-- Models scanner `ReadFileContent`: binary files read back as "". -/
def readFileContent (content : Str) : Str :=
  if isBinaryFile content then [] else content

/-- Models the scanner pass feeding `IndexProject`: `shouldIncludeFile`
drops zero-size files (`info.Size() == 0`); the extension and ignore-rule
filters depend only on the environment and are left outside the model. -/
def scanFiles (fs : List FsFile) : List FsFile :=
  fs.filter fun f => !f.content.isEmpty

/-- The idealized `computeFileHash` (SHA-256, modelled injectively). -/
def hashOf (content : Str) : Str := content

/-- Models `Chunker.chunkByLines`: one file-chunk if the file has at most
`maxChunkSize` lines, otherwise overlapping block windows whose start
indices follow the same loop as the oversized-symbol splitter. -/
def chunkByLines (maxChunkSize overlapLines : Nat) (content filePath : Str) :
    List Chunk :=
  let lines := splitOnChar '\n' content
  if lines.length ≤ maxChunkSize then
    [{ content := content
       type := str "file"
       name := filePath
       startLine := 1
       endLine := (lines.length : Int) }]
  else
    (splitStarts lines.length maxChunkSize (maxChunkSize - overlapLines)).map
      fun i =>
        { content := joinLines ((lines.drop i).take maxChunkSize)
          type := str "block"
          name := []
          startLine := (i : Int) + 1
          endLine := ((min (i + maxChunkSize) lines.length : Nat) : Int) }

/-- Models `Chunker.ChunkFile` on the legacy line-based path (a language
with neither tree-sitter nor a dedicated legacy parser branch, e.g.
"text"): chunk by lines, then stamp language and path onto every chunk.
The Go code passes the path relative to the root here; only the cosmetic
`name` field of file-chunks sees it, so the model passes the absolute
path. -/
def chunkFileLines (maxChunkSize overlapLines : Nat)
    (content filePath language : Str) : List Chunk :=
  (chunkByLines maxChunkSize overlapLines content filePath).map
    fun c => { c with language := language, filePath := filePath }

/-- The chunk list built for one file by `Indexer.processFile` and
`Indexer.UpdateFile` after a successful non-empty read: chunk the content,
then assign `GenerateChunkID(absPath, i)` and the absolute path. -/
def buildChunks (maxChunkSize overlapLines : Nat) (path content : Str) :
    List Chunk :=
  (chunkFileLines maxChunkSize overlapLines content path (str "text")).enum.map
    fun pr => { pr.2 with id := (path, pr.1), filePath := path }

/-- Models `Indexer.processFile`: read the file (binary reads back as ""),
skip empty reads, otherwise chunk with IDs and absolute paths. -/
def processFile (maxChunkSize overlapLines : Nat) (f : FsFile) : List Chunk :=
  let content := readFileContent f.content
  if content.isEmpty then []
  else buildChunks maxChunkSize overlapLines f.path content

/-- The joint state of the chunk store and the file-hash store that the
Indexer manipulates. -/
structure IndexState where
  chunks : List Chunk
  hashes : List HashRow
deriving DecidableEq, Repr

/-- Models `Store.DeleteFileChunks`: DELETE all chunks of one absolute
path. -/
def deleteFileChunks (p : Str) (s : IndexState) : IndexState :=
  { s with chunks := s.chunks.filter fun c => !decide (c.filePath = p) }

/-- Models `FileHashStore.SetFileHash`: INSERT OR REPLACE on the key
(project_path, file_path). -/
def setFileHash (root p h : Str) (s : IndexState) : IndexState :=
  { s with hashes :=
      (s.hashes.filter fun r =>
        !(decide (r.project_path = root) && decide (r.file_path = p))) ++
      [⟨root, p, h⟩] }

/-- Models `FileHashStore.RemoveFileHash`: DELETE on the same key. -/
def removeFileHash (root p : Str) (s : IndexState) : IndexState :=
  { s with hashes :=
      s.hashes.filter fun r =>
        !(decide (r.project_path = root) && decide (r.file_path = p)) }

/-- Models `Store.AddChunks`: embed each chunk (one embedding call per
chunk) and INSERT OR REPLACE it by its ID. -/
def addChunks (cs : List Chunk) (s : IndexState) : IndexState :=
  { s with chunks :=
      (s.chunks.filter fun c => !(cs.any fun c2 => decide (c2.id = c.id))) ++
      cs }

/-- The stored hash rows of one project root (`WHERE project_path = ?`). -/
def storedFor (root : Str) (s : IndexState) : List HashRow :=
  s.hashes.filter fun r => decide (r.project_path = root)

/-- Models `FileHashStore.GetChangedFiles`: the (added, modified, deleted)
path lists of the three-way diff between the scanned tree and the stored
hashes of the root. -/
def getChangedFiles (root : Str) (s : IndexState) (current : List FsFile) :
    List Str × List Str × List Str :=
  let stored := storedFor root s
  ((current.filter fun f =>
      !(stored.any fun r => decide (r.file_path = f.path))).map (·.path),
   ((current.filter fun f =>
      stored.any fun r =>
        decide (r.file_path = f.path) &&
          !decide (r.hash = hashOf f.content)).map (·.path),
    (stored.filter fun r =>
      !(current.any fun f => decide (f.path = r.file_path))).map
      (·.file_path)))

/-- Counters of one `IndexProject` run: chunk rows inserted, the number of
`DeleteFileChunks` calls issued, and embedding calls made (AddChunks embeds
each chunk it inserts). -/
structure IndexStats where
  inserted : Nat
  deleteCalls : Nat
  embedCalls : Nat
deriving DecidableEq, Repr

/-- One iteration of `IndexProject`'s processing loop: look the path up in
the scanned file map, process the file, add its chunks when there are any,
and set the file hash unconditionally. -/
def indexStep (maxChunkSize overlapLines : Nat) (root : Str)
    (files : List FsFile) (acc : IndexState × IndexStats) (p : Str) :
    IndexState × IndexStats :=
  match files.find? fun f => decide (f.path = p) with
  | none => acc
  | some f =>
    let cs := processFile maxChunkSize overlapLines f
    let st := if cs.isEmpty then acc.1 else addChunks cs acc.1
    (setFileHash root p (hashOf f.content) st,
     { inserted := acc.2.inserted + cs.length
       deleteCalls := acc.2.deleteCalls
       embedCalls := acc.2.embedCalls + cs.length })

/-- Models `Indexer.IndexProject` on root `root` over the scanned tree
`fs`: diff against the stored hashes, drop deleted files (chunks and hash
row), drop the chunks of modified files, then process added ++ modified. -/
def indexProject (maxChunkSize overlapLines : Nat) (root : Str)
    (fs : List FsFile) (s : IndexState) : IndexState × IndexStats :=
  let files := scanFiles fs
  let diff := getChangedFiles root s files
  let s1 := diff.2.2.foldl
    (fun st p => removeFileHash root p (deleteFileChunks p st)) s
  let s2 := diff.2.1.foldl (fun st p => deleteFileChunks p st) s1
  (diff.1 ++ diff.2.1).foldl (indexStep maxChunkSize overlapLines root files)
    (s2, ⟨0, diff.2.2.length + diff.2.1.length, 0⟩)

/-- Models `Indexer.UpdateFile` (watcher path): delete the file's chunks,
re-read, stop on an empty or binary read, otherwise re-chunk, re-add and
set the hash of the read content. -/
def updateFile (maxChunkSize overlapLines : Nat) (root : Str) (f : FsFile)
    (s : IndexState) : IndexState :=
  let s1 := deleteFileChunks f.path s
  let content := readFileContent f.content
  if content.isEmpty then s1
  else
    let cs := buildChunks maxChunkSize overlapLines f.path content
    let s2 := if cs.isEmpty then s1 else addChunks cs s1
    setFileHash root f.path (hashOf content) s2

/-- First-occurrence deduplication (the scan order of SELECT DISTINCT). -/
def distinctAux (seen : List Str) : List Str → List Str
  | [] => []
  | x :: t =>
    if seen.any fun y => decide (y = x) then distinctAux seen t
    else x :: distinctAux (seen ++ [x]) t

/-- Models `FileHashStore.ListIndexedFolders`
(SELECT DISTINCT project_path FROM file_hashes). -/
def listIndexedFolders (s : IndexState) : List Str :=
  distinctAux [] (s.hashes.map (·.project_path))

/-- The component stack of `filepath.Clean` on a rooted path: drop empty
and "." components, pop one component on "..". -/
def cleanParts (acc : List Str) : List Str → List Str
  | [] => acc.reverse
  | p :: ps =>
    if p.isEmpty || decide (p = str ".") then cleanParts acc ps
    else if decide (p = str "..") then
      match acc with
      | [] => cleanParts [] ps
      | _ :: t => cleanParts t ps
    else cleanParts (p :: acc) ps

/-- Joins path components with a separator character. -/
def joinSep (sep : Char) : List Str → Str
  | [] => []
  | [x] => x
  | x :: t => x ++ sep :: joinSep sep t

/-- Models `filepath.Clean` on the rooted slash-separated paths the
indexer passes around (every path has been through `filepath.Abs`). -/
def cleanAbs (s : Str) : Str :=
  '/' :: joinSep '/' (cleanParts [] (splitOnChar '/' s))

/-- Models `hasPrefix` of embedder.go: clean both paths, require the
cleaned second argument to be a string prefix of the cleaned first, and
require the next character of the longer path to be the separator. -/
def hasPrefix (path pfx : Str) : Bool :=
  let p := cleanAbs path
  let q := cleanAbs pfx
  if p.length < q.length then false
  else if !q.isPrefixOf p then false
  else if decide (q.length < p.length) &&
      !decide ((p.drop q.length).head? = some '/') then false
  else true

/-- Models `Indexer.DeleteFile` (watcher path): delete the file's chunks,
then remove its hash from the first indexed folder that path-prefixes the
file (the loop breaks after the first hit). -/
def deleteFileOp (p : Str) (s : IndexState) : IndexState :=
  let s1 := deleteFileChunks p s
  match (listIndexedFolders s1).find? fun folder => hasPrefix p folder with
  | none => s1
  | some folder => removeFileHash folder p s1

/-- Models `Indexer.DeleteFolder` (watcher path): find the first indexed
folder containing the deleted folder, then for each stored file of that
folder lying under the deleted folder, delete its chunks and its hash row
(the outer loop breaks after the first folder). -/
def deleteFolderOp (fp : Str) (s : IndexState) : IndexState :=
  match (listIndexedFolders s).find? fun folder => hasPrefix fp folder with
  | none => s
  | some folder =>
    ((storedFor folder s).map (·.file_path)).foldl
      (fun st q =>
        if hasPrefix q fp then removeFileHash folder q (deleteFileChunks q st)
        else st) s

/-- There is a file-hash row for path `p`. -/
def pathHasHash (s : IndexState) (p : Str) : Prop :=
  ∃ r ∈ s.hashes, r.file_path = p

/-- There is a chunk row for path `p`. -/
def pathHasChunk (s : IndexState) (p : Str) : Prop :=
  ∃ c ∈ s.chunks, c.filePath = p

/-- A scanned file with nonempty non-binary content: its read returns the
content itself and its chunk list is nonempty. -/
def GoodFile (f : FsFile) : Prop :=
  f.content ≠ [] ∧ isBinaryFile f.content = false

/-- A scanned tree with distinct paths whose files are all `GoodFile`s. -/
def GoodFs (fs : List FsFile) : Prop :=
  (fs.map (·.path)).Nodup ∧ ∀ f ∈ fs, GoodFile f

/-- States reachable through the Indexer API from an empty store, with no
assumption on file contents. -/
inductive IndexerReach (m o : Nat) (root : Str) : IndexState → Prop
  | init : IndexerReach m o root ⟨[], []⟩
  | index (fs : List FsFile) (s : IndexState) : IndexerReach m o root s →
      IndexerReach m o root (indexProject m o root fs s).1
  | update (f : FsFile) (s : IndexState) : IndexerReach m o root s →
      IndexerReach m o root (updateFile m o root f s)
  | delFile (p : Str) (s : IndexState) : IndexerReach m o root s →
      IndexerReach m o root (deleteFileOp p s)
  | delFolder (p : Str) (s : IndexState) : IndexerReach m o root s →
      IndexerReach m o root (deleteFolderOp p s)

/-- States reachable through the Indexer API from an empty store when
every scanned tree and watched file is well behaved (distinct paths,
nonempty non-binary contents) and watcher deletions target paths under the
indexed root. -/
inductive GoodReach (m o : Nat) (root : Str) : IndexState → Prop
  | init : GoodReach m o root ⟨[], []⟩
  | index (fs : List FsFile) (s : IndexState) : GoodFs fs →
      GoodReach m o root s →
      GoodReach m o root (indexProject m o root fs s).1
  | update (f : FsFile) (s : IndexState) : GoodFile f →
      GoodReach m o root s →
      GoodReach m o root (updateFile m o root f s)
  | delFile (p : Str) (s : IndexState) : hasPrefix p root = true →
      GoodReach m o root s →
      GoodReach m o root (deleteFileOp p s)
  | delFolder (p : Str) (s : IndexState) : hasPrefix p root = true →
      GoodReach m o root s →
      GoodReach m o root (deleteFolderOp p s)

/-- The store shape the Indexer maintains over a single root: every hash
row belongs to the root, chunk IDs carry their own path, and hash rows and
chunk rows exist for exactly the same paths. -/
def WfIdx (root : Str) (s : IndexState) : Prop :=
  (∀ r ∈ s.hashes, r.project_path = root) ∧
  (∀ c ∈ s.chunks, c.id.1 = c.filePath) ∧
  (∀ p, pathHasHash s p ↔ pathHasChunk s p)

/-- A binary file: a NUL byte in the content ("\x00x"). -/
def cexBinFile : FsFile := ⟨str "/r/a.bin", [Char.ofNat 0, 'x']⟩

/-- The state after indexing a tree holding only the binary file. -/
def cexBinState : IndexState :=
  (indexProject 500 20 (str "/r") [cexBinFile] ⟨[], []⟩).1

/-- A well-behaved one-file tree. -/
def cexGoodFs : List FsFile := [⟨str "/r/a.txt", str "hi"⟩]

/-- The state after indexing the well-behaved one-file tree. -/
def cexGoodState : IndexState :=
  (indexProject 500 20 (str "/r") cexGoodFs ⟨[], []⟩).1

/-- A store over root "/a" holding two files, one under "/a/b" and one
under the sibling "/a/bc" whose name extends "b". -/
def cexDelState : IndexState :=
  { chunks :=
      [{ id := (str "/a/bc/f.txt", 0)
         content := str "x"
         type := str "file"
         name := str "f.txt"
         filePath := str "/a/bc/f.txt"
         startLine := 1
         endLine := 1 },
       { id := (str "/a/b/g.txt", 0)
         content := str "y"
         type := str "file"
         name := str "g.txt"
         filePath := str "/a/b/g.txt"
         startLine := 1
         endLine := 1 }]
    hashes :=
      [⟨str "/a", str "/a/bc/f.txt", str "x"⟩,
       ⟨str "/a", str "/a/b/g.txt", str "y"⟩] }

-- THEOREMS

/-- Auxiliary: the window loop always emits its current start first. -/
theorem splitStartsAux_head (maxChunk step len fuel i : Nat) :
    (splitStartsAux maxChunk step len fuel i).head? = some i := by
  cases fuel with
  | zero => rfl
  | succ f =>
    by_cases h : len ≤ i + maxChunk <;> simp [splitStartsAux, h]

/-- Auxiliary: the window loop emits a nonempty list of starts. -/
theorem splitStartsAux_ne_nil (maxChunk step len fuel i : Nat) :
    splitStartsAux maxChunk step len fuel i ≠ [] := by
  intro h
  have := splitStartsAux_head maxChunk step len fuel i
  rw [h] at this
  exact Option.noConfusion this

/-- Auxiliary: every emitted start is at least the initial index. -/
theorem splitStartsAux_mem_ge (maxChunk step len : Nat) :
    ∀ fuel i j, j ∈ splitStartsAux maxChunk step len fuel i → i ≤ j := by
  intro fuel
  induction fuel with
  | zero =>
    intro i j hj
    simp [splitStartsAux] at hj
    omega
  | succ f ih =>
    intro i j hj
    by_cases h : len ≤ i + maxChunk
    · simp [splitStartsAux, h] at hj
      omega
    · simp [splitStartsAux, h] at hj
      rcases hj with hj | hj
      · omega
      · have := ih (i + step) j hj
        omega

/-- Auxiliary: every emitted start is the initial one or a full step later. -/
theorem splitStartsAux_mem_step (maxChunk step len : Nat)
    (fuel i j : Nat) (hj : j ∈ splitStartsAux maxChunk step len fuel i) :
    j = i ∨ i + step ≤ j := by
  cases fuel with
  | zero =>
    simp [splitStartsAux] at hj
    omega
  | succ f =>
    by_cases h : len ≤ i + maxChunk
    · simp [splitStartsAux, h] at hj
      omega
    · simp [splitStartsAux, h] at hj
      rcases hj with hj | hj
      · omega
      · exact Or.inr (splitStartsAux_mem_ge maxChunk step len f (i + step) j hj)

/-- Auxiliary: consecutive window starts differ by exactly one step. -/
theorem splitStartsAux_chain (maxChunk step len : Nat) :
    ∀ fuel i, List.Chain' (fun s t => t = s + step)
      (splitStartsAux maxChunk step len fuel i) := by
  intro fuel
  induction fuel with
  | zero => intro i; simp [splitStartsAux]
  | succ f ih =>
    intro i
    by_cases h : len ≤ i + maxChunk
    · simp [splitStartsAux, h]
    · simp only [splitStartsAux, h, if_false]
      rw [List.chain'_cons']
      refine ⟨?_, ih (i + step)⟩
      intro b hb
      simp [splitStartsAux_head] at hb
      omega

/-- Auxiliary: squared norm of a componentwise division. -/
theorem normSq_map_div (v : List ℚ) (n : ℚ) :
    normSq (v.map (fun x => x / n)) = normSq v / (n * n) := by
  induction v with
  | nil => simp [normSq]
  | cons x t ih =>
    simp only [normSq, List.map_cons, List.map_map, List.sum_cons,
      Function.comp] at ih ⊢
    rw [ih, div_mul_div_comm, add_div]

/-- Claim C9 (amended): an embedding produced by `normalizeVector` from a
provider vector of nonzero norm has squared L2 norm exactly 1, hence lies
within the `[1 − 10⁻⁴, 1 + 10⁻⁴]` band claimed for the stored vectors; a
zero-norm provider vector, however, is returned unchanged. -/
theorem normalizeVector_norm_cases (v : List ℚ) (n : ℚ)
    (hn : n * n = normSq v) :
    (n ≠ 0 →
      (1 - 1/10000 : ℚ) ^ 2 ≤ normSq (normalizeVector v n) ∧
      normSq (normalizeVector v n) ≤ (1 + 1/10000 : ℚ) ^ 2) ∧
    (n = 0 → normalizeVector v n = v) := by
  constructor
  · intro h0
    have hnn : n * n ≠ 0 := mul_ne_zero h0 h0
    have h1 : normSq (normalizeVector v n) = 1 := by
      rw [normalizeVector, if_neg h0, normSq_map_div, ← hn, div_self hnn]
    rw [h1]
    constructor <;> norm_num
  · intro h0
    rw [normalizeVector, if_pos h0]

/-- Witness for C9's amended theorem at the concrete provider vector
`[3/5, 4/5]` whose exact norm is 1. -/
theorem normalizeVector_norm_cases_witness :
    (1 : ℚ) * 1 = normSq [3/5, 4/5] ∧
    (1 - 1/10000 : ℚ) ^ 2 ≤ normSq (normalizeVector [3/5, 4/5] 1) := by
  have h : (1 : ℚ) * 1 = normSq [3/5, 4/5] := by norm_num [normSq]
  exact ⟨h, ((normalizeVector_norm_cases [3/5, 4/5] 1 h).1 (by norm_num)).1⟩

/-- Claim C9 counterexample: the all-zero provider vector is stored
unchanged by `normalizeVector` (the `norm == 0` branch), so its stored
L2 norm is 0, outside `[1 − 10⁻⁴, 1 + 10⁻⁴]`. -/
theorem normalizeVector_zero_cex :
    (0 : ℚ) * 0 = normSq [0, 0, 0] ∧
    normalizeVector [0, 0, 0] 0 = [0, 0, 0] ∧
    normSq (normalizeVector [0, 0, 0] 0) = 0 ∧
    ¬ ((1 - 1/10000 : ℚ) ^ 2 ≤ normSq (normalizeVector [0, 0, 0] 0)) := by
  refine ⟨by norm_num [normSq], rfl, by norm_num [normalizeVector, normSq], ?_⟩
  norm_num [normalizeVector, normSq]

/-- Claim C1 (amended): when the persisted `embedding_dimension` differs
from the detected one, `initSchema` empties the vec tables and the chunks
table and persists the new dimension, but the `file_hashes` rows are
retained unchanged. -/
theorem initSchema_dimension_change (db : StoreTables) (d stored : Nat)
    (hs : db.storeConfigDim = some stored) (hne : stored ≠ d) :
    (initSchema d db).chunks = [] ∧
    (initSchema d db).vecChunks = [] ∧
    (initSchema d db).vecChunkMap = [] ∧
    (initSchema d db).storeConfigDim = some d ∧
    (initSchema d db).fileHashes = db.fileHashes := by
  simp [initSchema, checkAndUpdateDimension, hs, hne]

/-- Witness for C1's amended theorem at a concrete store with persisted
dimension 4, one chunk and one hash row, opened with detected dimension 8. -/
theorem initSchema_dimension_change_witness :
    (StoreTables.mk (some 4)
      [ChunkRow.mk (str "i") (str "/r/a.txt") (str "file") (str "a")
        (str "text") 1 1 (str "x") (str "") (str "") false false (str "")]
      [(1, [1])] [(str "i", 1)]
      [HashRow.mk (str "/r") (str "/r/a.txt") (str "h")]).storeConfigDim
        = some 4 ∧
    (4 : Nat) ≠ 8 ∧
    (initSchema 8 (StoreTables.mk (some 4)
      [ChunkRow.mk (str "i") (str "/r/a.txt") (str "file") (str "a")
        (str "text") 1 1 (str "x") (str "") (str "") false false (str "")]
      [(1, [1])] [(str "i", 1)]
      [HashRow.mk (str "/r") (str "/r/a.txt") (str "h")])).chunks = [] := by
  refine ⟨rfl, by decide, ?_⟩
  exact (initSchema_dimension_change _ 8 4 rfl (by decide)).1

/-- Claim C1 counterexample: opening a store persisted with dimension 4
using an embedder of dimension 8 leaves the `file_hashes` rows in place —
the claim that hashes are dropped on dimension mismatch is false. -/
theorem initSchema_retains_hashes_cex :
    (initSchema 8 (StoreTables.mk (some 4)
      [ChunkRow.mk (str "i") (str "/r/a.txt") (str "file") (str "a")
        (str "text") 1 1 (str "x") (str "") (str "") false false (str "")]
      [(1, [1])] [(str "i", 1)]
      [HashRow.mk (str "/r") (str "/r/a.txt") (str "h")])).fileHashes
      = [HashRow.mk (str "/r") (str "/r/a.txt") (str "h")] ∧
    (initSchema 8 (StoreTables.mk (some 4)
      [ChunkRow.mk (str "i") (str "/r/a.txt") (str "file") (str "a")
        (str "text") 1 1 (str "x") (str "") (str "") false false (str "")]
      [(1, [1])] [(str "i", 1)]
      [HashRow.mk (str "/r") (str "/r/a.txt") (str "h")])).chunks = [] := by
  constructor <;> rfl


/-- Auxiliary: the chunker's window starts exceed one when the symbol is
oversized. -/
theorem splitStarts_two_le (maxChunk step len : Nat) (h : maxChunk < len) :
    2 ≤ (splitStarts len maxChunk step).length := by
  unfold splitStarts
  cases len with
  | zero => omega
  | succ f =>
    have hcond : ¬ (f + 1 ≤ 0 + maxChunk) := by omega
    simp only [splitStartsAux, hcond, if_false]
    have hne := splitStartsAux_ne_nil maxChunk step (f + 1) f (0 + step)
    have hlen := List.length_pos.mpr hne
    simp only [List.length_cons]
    omega

/-- Auxiliary: the name given to a window chunk when the suffix condition
of the source holds. -/
theorem windowChunk_name_pos (lines : List Str) (maxChunk overlap : Nat)
    (sym : SymbolInfo) (language : Str) (isTestFile : Bool) (i : Nat)
    (hcond : 1 < i / (maxChunk - overlap) + 1 ∨
      min (i + maxChunk) lines.length < lines.length) :
    (windowChunk lines maxChunk overlap sym language isTestFile i).name =
      sym.name ++ str " (part " ++
        [Char.ofNat (48 + (i / (maxChunk - overlap) + 1))] ++ str ")" := by
  simp only [windowChunk]
  rw [if_pos hcond]

/-- Claim C5 (amended): an oversized symbol is split into line windows of
length `max_chunk_lines` stepping by `max_chunk_lines − overlap_lines`, so
consecutive windows share `overlap_lines` lines; every part keeps the
original symbol's kind, calls, references, is_exported and parent, takes
the file-level test flag as its is_test, and every part — including the
first — carries the ordinal ` (part N)` suffix in its name. -/
theorem splitLargeSymbol_spec (maxChunk overlap : Nat) (sym : SymbolInfo)
    (language : Str) (isTestFile : Bool)
    (hov : overlap < maxChunk)
    (hbig : maxChunk < (splitOnChar '\n' sym.content).length) :
    2 ≤ (splitLargeSymbol maxChunk overlap sym language isTestFile).length ∧
    (∀ c ∈ splitLargeSymbol maxChunk overlap sym language isTestFile,
      c.type = sym.type ∧ c.calls = sym.calls ∧
      c.references = sym.references ∧ c.isExported = sym.isExported ∧
      c.isTest = isTestFile ∧ c.parent = sym.parent) ∧
    (∀ c ∈ splitLargeSymbol maxChunk overlap sym language isTestFile,
      ∃ k, 1 ≤ k ∧
        c.name = sym.name ++ str " (part " ++ [Char.ofNat (48 + k)] ++
          str ")") ∧
    (∀ c, (splitLargeSymbol maxChunk overlap sym language
        isTestFile).head? = some c →
      c.name = sym.name ++ str " (part " ++ [Char.ofNat 49] ++ str ")") ∧
    List.Chain'
      (fun s t =>
        t = s + (maxChunk - overlap) ∧
        (((splitOnChar '\n' sym.content).drop t).take maxChunk).take
            overlap =
          (((splitOnChar '\n' sym.content).drop s).take maxChunk).drop
            (maxChunk - overlap))
      (splitStarts (splitOnChar '\n' sym.content).length maxChunk
        (maxChunk - overlap)) := by
  have hstep : 0 < maxChunk - overlap := by omega
  have hslice : ∀ s t : Nat, t = s + (maxChunk - overlap) →
      (((splitOnChar '\n' sym.content).drop t).take maxChunk).take overlap =
      (((splitOnChar '\n' sym.content).drop s).take maxChunk).drop
        (maxChunk - overlap) := by
    intro s t ht
    subst ht
    rw [List.take_take, min_eq_left (le_of_lt hov), List.drop_take,
      List.drop_drop]
    have h1 : maxChunk - (maxChunk - overlap) = overlap := by omega
    rw [h1, Nat.add_comm]
  refine ⟨?_, ?_, ?_, ?_, ?_⟩
  · rw [splitLargeSymbol, List.length_map]
    exact splitStarts_two_le _ _ _ hbig
  · intro c hc
    rw [splitLargeSymbol, List.mem_map] at hc
    obtain ⟨i, _, rfl⟩ := hc
    simp [windowChunk]
  · intro c hc
    rw [splitLargeSymbol, List.mem_map] at hc
    obtain ⟨i, hi, rfl⟩ := hc
    refine ⟨i / (maxChunk - overlap) + 1, Nat.succ_le_succ (Nat.zero_le _), ?_⟩
    apply windowChunk_name_pos
    rcases splitStartsAux_mem_step maxChunk (maxChunk - overlap)
      (splitOnChar '\n' sym.content).length
      (splitOnChar '\n' sym.content).length 0 i hi with h0 | hge
    · right
      subst h0
      have : min (0 + maxChunk) (splitOnChar '\n' sym.content).length =
          maxChunk := by omega
      omega
    · left
      have : 1 ≤ i / (maxChunk - overlap) :=
        (Nat.one_le_div_iff hstep).mpr (by omega)
      omega
  · intro c hc
    rw [splitLargeSymbol, List.head?_map, splitStarts,
      splitStartsAux_head] at hc
    simp only [Option.map_some', Option.some.injEq] at hc
    subst hc
    have hname := windowChunk_name_pos (splitOnChar '\n' sym.content)
      maxChunk overlap sym language isTestFile 0
      (by
        right
        have : min (0 + maxChunk) (splitOnChar '\n' sym.content).length =
            maxChunk := by omega
        omega)
    rw [hname, Nat.zero_div]
  · apply List.Chain'.imp ?_
      (splitStartsAux_chain maxChunk (maxChunk - overlap)
        (splitOnChar '\n' sym.content).length
        (splitOnChar '\n' sym.content).length 0)
    intro s t ht
    exact ⟨ht, hslice s t ht⟩

/-- Witness for C5's amended theorem: the three-line symbol `symEx` split
with `max_chunk_lines = 2`, `overlap_lines = 1` yields at least two parts,
and the first part already carries the ordinal suffix. -/
theorem splitLargeSymbol_spec_witness :
    1 < 2 ∧ 2 < (splitOnChar '\n' symEx.content).length ∧
    2 ≤ (splitLargeSymbol 2 1 symEx (str "go") false).length := by
  refine ⟨by decide, by decide, ?_⟩
  exact (splitLargeSymbol_spec 2 1 symEx (str "go") false (by decide)
    (by decide)).1

/-- Claim C5 counterexample: splitting the three-line symbol `symEx`
(`max_chunk_lines = 2`, `overlap_lines = 1`) renames the FIRST part to
`X (part 1)` — the claim that only parts after the first carry an ordinal
suffix is false. -/
theorem splitLargeSymbol_first_part_suffix_cex :
    (splitLargeSymbol 2 1 symEx (str "go") false).map (fun c => c.name) =
      [str "X (part 1)", str "X (part 2)"] ∧
    symEx.name = str "X" := by
  constructor <;> decide

/-- Auxiliary: assigning a key in the pending map makes it readable. -/
theorem getKey_setKey (m : List (Str × Nat)) (k : Str) (v : Nat) :
    getKey (setKey m k v) k = some v := by
  unfold getKey setKey
  rw [List.find?_append]
  have h1 : (m.filter fun p => decide (p.1 ≠ k)).find?
      (fun p => decide (p.1 = k)) = none := by
    rw [List.find?_eq_none]
    intro x hx
    have hmem := List.of_mem_filter hx
    simp only [decide_eq_true_eq] at hmem ⊢
    exact hmem
  rw [h1]
  simp

/-- Auxiliary: a queued event on a path that is not a watched directory
overwrites the pending entry with the event's own op and leaves the path
outside the watched-directory set. -/
theorem handleEvent_stores (env : WatchEnv) (s : WatchState) (e : FsEvent)
    (hq : queues env e = true)
    (hd : dirMem s.watchedDir e.name = false) :
    getKey (handleEvent env s e).pending e.name = some e.op ∧
    dirMem (handleEvent env s e).watchedDir e.name = false := by
  unfold queues at hq
  rw [Bool.and_eq_true, Bool.not_eq_true'] at hq
  obtain ⟨hq1, hq2⟩ := hq
  unfold handleEvent
  rw [hq1]
  cases hc2 : (opHas e.op opRemove || opHas e.op opRename) with
  | true =>
    simp only [hc2] at *
    simp [hd, getKey_setKey]
  | false =>
    rw [hc2, Bool.false_or, Bool.not_eq_true'] at hq2
    simp only [hc2] at *
    simp [hq2, hd, getKey_setKey]

/-- Auxiliary: after a burst of queued events on a single non-directory
path, the pending map holds exactly the op of the last event. -/
theorem foldl_handleEvent_pending (env : WatchEnv) (P : Str) :
    ∀ (events : List FsEvent) (s0 : WatchState),
    (∀ e ∈ events, e.name = P ∧ queues env e = true) →
    dirMem s0.watchedDir P = false →
    ∀ e, events.getLast? = some e →
    getKey (events.foldl (handleEvent env) s0).pending P = some e.op := by
  intro events
  induction events with
  | nil =>
    intro s0 _ _ e he
    simp at he
  | cons e1 rest ih =>
    intro s0 hall hd e he
    obtain ⟨hname, hq⟩ := hall e1 (List.mem_cons_self e1 rest)
    have hd1 : dirMem s0.watchedDir e1.name = false := by
      rw [hname]; exact hd
    have hstep := handleEvent_stores env s0 e1 hq hd1
    cases rest with
    | nil =>
      simp only [List.foldl_cons, List.foldl_nil]
      simp only [List.getLast?_singleton, Option.some.injEq] at he
      subst he
      rw [← hname]
      exact hstep.1
    | cons e2 rest2 =>
      rw [List.foldl_cons]
      have hd2 : dirMem (handleEvent env s0 e1).watchedDir P = false := by
        rw [← hname]; exact hstep.2
      apply ih (handleEvent env s0 e1)
        (fun x hx => hall x (List.mem_cons_of_mem e1 hx)) hd2 e
      rwa [List.getLast?_cons_cons] at he

/-- Claim C3 (amended): for a burst of queued filesystem events on one
path that is not a watched directory, the action performed at flush is
decided by the op bitmask of the LAST queued event alone (last-writer-wins
with no cross-event exception); the delete-wins exception applies only
inside a single event's bitmask: a final event carrying both the write and
the remove flags yields the delete action. -/
theorem flushPending_last_writer (env : WatchEnv) (s0 : WatchState)
    (P : Str) (events : List FsEvent) (hne : events ≠ [])
    (hall : ∀ e ∈ events, e.name = P ∧ queues env e = true)
    (hd : dirMem s0.watchedDir P = false) :
    flushActionFor (events.foldl (handleEvent env) s0) P =
      flushDecision (events.getLast hne).op ∧
    (∀ op : Nat, opHas op opWrite = true → opHas op opRemove = true →
      op &&& 256 = 0 → flushDecision op = WAction.deleteFile) := by
  constructor
  · have hlast : events.getLast? = some (events.getLast hne) :=
      List.getLast?_eq_getLast events hne
    have hpend := foldl_handleEvent_pending env P events s0 hall hd _ hlast
    unfold flushActionFor
    rw [hpend]
  · intro op hw hr h256
    have h4 : (255 : Nat) &&& 4 = 4 := by decide
    have hr2 : opHas (op &&& 255) opRemove = true := by
      unfold opHas opRemove at hr ⊢
      rw [Nat.and_assoc, h4]
      exact hr
    simp [flushDecision, hr2, h256]

/-- Witness for C3's amended theorem on the concrete Remove-then-Write
burst: the flushed action is the one decided by the last event's op
(`opWrite`, hence an update). -/
theorem flushPending_last_writer_witness :
    (cexBurst ≠ [] ∧
      (∀ e ∈ cexBurst, e.name = str "/r/a.go" ∧ queues plainEnv e = true) ∧
      dirMem (WatchState.mk [] []).watchedDir (str "/r/a.go") = false) ∧
    flushActionFor (cexBurst.foldl (handleEvent plainEnv)
      (WatchState.mk [] [])) (str "/r/a.go") = flushDecision 2 := by
  refine ⟨⟨by decide, by decide, by decide⟩, ?_⟩
  exact (flushPending_last_writer plainEnv (WatchState.mk [] [])
    (str "/r/a.go") cexBurst (by decide) (by decide) (by decide)).1

/-- Claim C3 counterexample: the burst Remove-then-Write on one path
contains both a write and a delete, yet the flushed action is `update`,
not the delete the claim mandates. -/
theorem flushPending_write_after_delete_cex :
    (cexBurst.any fun e => opHas e.op opWrite) = true ∧
    (cexBurst.any fun e => opHas e.op opRemove) = true ∧
    flushActionFor (cexBurst.foldl (handleEvent plainEnv)
      (WatchState.mk [] [])) (str "/r/a.go") = WAction.update ∧
    WAction.update ≠ WAction.deleteFile := by
  refine ⟨by decide, by decide, by decide, by decide⟩

/-- Auxiliary: `strContains` decides contiguous-sublist containment. -/
theorem strContains_iff_sub (h n : Str) :
    strContains h n = true ↔ n <:+: h := by
  induction h with
  | nil =>
    rw [strContains]
    cases n with
    | nil => simp [List.isPrefixOf]
    | cons a t => simp [List.isPrefixOf, List.infix_nil]
  | cons a t ih =>
    rw [strContains]
    by_cases hp : n.isPrefixOf (a :: t) = true
    · simp only [hp, if_true, true_iff]
      exact (List.isPrefixOf_iff_prefix.mp hp).isInfix
    · simp only [hp, if_false, Bool.false_eq_true]
      rw [List.infix_cons_iff]
      have hnp : ¬ n <+: a :: t := fun hc =>
        hp (List.isPrefixOf_iff_prefix.mpr hc)
      constructor
      · intro hc
        exact Or.inr (ih.mp hc)
      · intro hc
        rcases hc with hc | hc
        · exact absurd hc hnp
        · exact ih.mpr hc

/-- Auxiliary: splitting never yields the empty list of pieces. -/
theorem splitOnChar_ne_nil (sep : Char) (s : Str) :
    splitOnChar sep s ≠ [] := by
  cases s with
  | nil => simp [splitOnChar]
  | cons c t =>
    simp only [splitOnChar]
    by_cases hc : c = sep
    · simp [hc]
    · simp only [hc, if_false]
      cases splitOnChar sep t with
      | nil => simp
      | cons h t2 => simp

/-- Auxiliary: every piece of a split is a contiguous sublist of the input,
and the first piece is a prefix. -/
theorem splitOnChar_piece_sub (sep : Char) :
    ∀ s : Str, (∀ p ∈ splitOnChar sep s, p <:+: s) ∧
      (∀ h rest, splitOnChar sep s = h :: rest → h <+: s) := by
  intro s
  induction s with
  | nil =>
    constructor
    · intro p hp
      simp only [splitOnChar, List.mem_singleton] at hp
      subst hp
      exact List.infix_rfl
    · intro h rest he
      simp only [splitOnChar, List.cons.injEq] at he
      obtain ⟨he1, -⟩ := he
      subst he1
      exact List.nil_prefix
  | cons c t ih =>
    obtain ⟨ih1, ih2⟩ := ih
    by_cases hc : c = sep
    · constructor
      · intro p hp
        simp only [splitOnChar, hc, if_pos, List.mem_cons] at hp
        rcases hp with hp | hp
        · subst hp
          exact List.nil_infix
        · exact List.infix_cons (ih1 p hp)
      · intro h rest he
        simp only [splitOnChar, hc, if_pos, List.cons.injEq] at he
        obtain ⟨he1, -⟩ := he
        subst he1
        exact List.nil_prefix
    · cases hsp : splitOnChar sep t with
      | nil => exact absurd hsp (splitOnChar_ne_nil sep t)
      | cons h0 t2 =>
        have hfirst : h0 <+: t := ih2 h0 t2 hsp
        constructor
        · intro p hp
          simp only [splitOnChar, hc, if_false, hsp, List.mem_cons] at hp
          rcases hp with hp | hp
          · subst hp
            exact (List.cons_prefix_cons.mpr ⟨rfl, hfirst⟩).isInfix
          · have hpt : p ∈ splitOnChar sep t := by
              rw [hsp]
              exact List.mem_cons_of_mem h0 hp
            exact List.infix_cons (ih1 p hpt)
        · intro h rest he
          simp only [splitOnChar, hc, if_false, hsp, List.cons.injEq] at he
          obtain ⟨he1, -⟩ := he
          subst he1
          exact List.cons_prefix_cons.mpr ⟨rfl, hfirst⟩

/-- Auxiliary: trimming whitespace yields a contiguous sublist. -/
theorem trimStr_sub (s : Str) : trimStr s <:+: s := by
  unfold trimStr
  have h1 : s.dropWhile Char.isWhitespace <:+ s := List.dropWhile_suffix _
  have h2 : ((s.dropWhile Char.isWhitespace).reverse.dropWhile
      Char.isWhitespace).reverse <+: s.dropWhile Char.isWhitespace := by
    rw [← List.reverse_suffix]
    simp only [List.reverse_reverse]
    exact List.dropWhile_suffix _
  exact h2.isInfix.trans h1.isInfix

/-- Auxiliary: an exact or dotted-suffix entry match implies the SQL
substring prefilter matches. -/
theorem entryMatch_implies_like (calls sym : Str)
    (h : callsEntryMatch calls sym = true) :
    likeContains calls sym = true := by
  unfold callsEntryMatch at h
  rw [List.any_eq_true] at h
  obtain ⟨e, he, hmatch⟩ := h
  have hsymE : sym <:+: trimStr e := by
    rw [Bool.or_eq_true] at hmatch
    rcases hmatch with hm | hm
    · rw [decide_eq_true_eq] at hm
      rw [hm]
    · have hsuf : ('.' :: sym) <:+ trimStr e :=
        List.isSuffixOf_iff_suffix.mp hm
      exact ((List.suffix_cons '.' sym).trans hsuf).isInfix
  have hEcalls : e <:+: calls := (splitOnChar_piece_sub ',' calls).1 e he
  have hsc : sym <:+: calls :=
    (hsymE.trans (trimStr_sub e)).trans hEcalls
  unfold likeContains
  rw [strContains_iff_sub]
  exact hsc.map Char.toLower

/-- Auxiliary: a nonempty symbol never entry-matches an empty calls
column. -/
theorem callsEntryMatch_nil (sym : Str) (hsym : sym ≠ []) :
    callsEntryMatch [] sym = false := by
  unfold callsEntryMatch
  simp only [splitOnChar, List.any_cons, List.any_nil, Bool.or_false]
  unfold trimStr
  simp only [List.dropWhile_nil, List.reverse_nil]
  rw [Bool.or_eq_false_iff]
  constructor
  · rw [decide_eq_false_iff_not]
    exact fun hc => hsym hc.symm
  · exact List.isSuffixOf_cons_nil

/-- Auxiliary: every caller found by the scan loop comes from the
accumulator or from a scanned row whose parsed call list matches. -/
theorem findCallersLoop_mem (sym : Str) (mr : Nat) :
    ∀ (rows : List ChunkRow) (acc : List CallerInfo) (seen : List Str),
    ∀ c ∈ findCallersLoop sym mr acc seen rows,
    c ∈ acc ∨ ∃ r ∈ rows, callsEntryMatch r.calls sym = true ∧
      c = mkCallerInfo r := by
  intro rows
  induction rows with
  | nil =>
    intro acc seen c hc
    simp only [findCallersLoop] at hc
    exact Or.inl hc
  | cons r rest ih =>
    intro acc seen c hc
    simp only [findCallersLoop] at hc
    split_ifs at hc with h1 h2 h3 h4
    · rcases ih acc seen c hc with h | ⟨r2, hr2, hm, he⟩
      · exact Or.inl h
      · exact Or.inr ⟨r2, List.mem_cons_of_mem r hr2, hm, he⟩
    · rcases ih acc seen c hc with h | ⟨r2, hr2, hm, he⟩
      · exact Or.inl h
      · exact Or.inr ⟨r2, List.mem_cons_of_mem r hr2, hm, he⟩
    · rcases ih acc seen c hc with h | ⟨r2, hr2, hm, he⟩
      · exact Or.inl h
      · exact Or.inr ⟨r2, List.mem_cons_of_mem r hr2, hm, he⟩
    · have h2' : callsEntryMatch r.calls sym = true := by simpa using h2
      rcases List.mem_append.mp hc with h | h
      · exact Or.inl h
      · rw [List.mem_singleton] at h
        exact Or.inr ⟨r, List.mem_cons_self r rest, h2', h⟩
    · have h2' : callsEntryMatch r.calls sym = true := by simpa using h2
      rcases ih _ _ c hc with h | ⟨r2, hr2, hm, he⟩
      · rcases List.mem_append.mp h with h | h
        · exact Or.inl h
        · rw [List.mem_singleton] at h
          exact Or.inr ⟨r, List.mem_cons_self r rest, h2', h⟩
      · exact Or.inr ⟨r2, List.mem_cons_of_mem r hr2, hm, he⟩

/-- Auxiliary: the scan loop never returns more than the result cap. -/
theorem findCallersLoop_length (sym : Str) (mr : Nat) :
    ∀ (rows : List ChunkRow) (acc : List CallerInfo) (seen : List Str),
    acc.length < mr →
    (findCallersLoop sym mr acc seen rows).length ≤ mr := by
  intro rows
  induction rows with
  | nil =>
    intro acc seen h
    simp only [findCallersLoop]
    omega
  | cons r rest ih =>
    intro acc seen h
    simp only [findCallersLoop]
    split_ifs with h1 h2 h3 h4
    · exact ih acc seen h
    · exact ih acc seen h
    · exact ih acc seen h
    · simp only [List.length_append, List.length_singleton]
      omega
    · refine ih (acc ++ [mkCallerInfo r]) (seen ++ [r.name]) ?_
      simp only [List.length_append, List.length_singleton] at h4 ⊢
      omega

/-- Auxiliary: the scan loop keeps caller names pairwise distinct. -/
theorem findCallersLoop_nodup (sym : Str) (mr : Nat) :
    ∀ (rows : List ChunkRow) (acc : List CallerInfo) (seen : List Str),
    (acc.map (fun c => c.name)).Nodup →
    (∀ c ∈ acc, c.name ∈ seen) →
    ((findCallersLoop sym mr acc seen rows).map
      (fun c => c.name)).Nodup := by
  intro rows
  induction rows with
  | nil =>
    intro acc seen hnd _
    simpa only [findCallersLoop] using hnd
  | cons r rest ih =>
    intro acc seen hnd hsub
    simp only [findCallersLoop]
    split_ifs with h1 h2 h3 h4
    · exact ih acc seen hnd hsub
    · exact ih acc seen hnd hsub
    · exact ih acc seen hnd hsub
    all_goals {
      have hnotseen : r.name ∉ seen := by
        intro hmem
        apply h3
        rw [List.any_eq_true]
        exact ⟨r.name, hmem, by simp⟩
      have hnotacc : r.name ∉ acc.map (fun c => c.name) := by
        intro hmem
        obtain ⟨c, hcacc, hcname⟩ := List.mem_map.mp hmem
        exact hnotseen (hcname ▸ hsub c hcacc)
      have hnd2 : ((acc ++ [mkCallerInfo r]).map
          (fun c => c.name)).Nodup := by
        rw [List.map_append]
        apply List.Nodup.append hnd (List.nodup_singleton _)
        rw [List.disjoint_singleton]
        exact hnotacc
      first
      | exact hnd2
      | { refine ih (acc ++ [mkCallerInfo r]) (seen ++ [r.name]) hnd2 ?_
          intro c hc
          rcases List.mem_append.mp hc with h | h
          · exact List.mem_append_left _ (hsub c h)
          · rw [List.mem_singleton] at h
            subst h
            exact List.mem_append_right _ (List.mem_singleton_self _) }
    }

/-- Auxiliary: when the scan loop sees all rows (no SQL LIMIT truncation
effect inside), it computes the filter-deduplicate-truncate pipeline. -/
theorem findCallersLoop_eq (sym : Str) (mr : Nat) (hsym : sym ≠ []) :
    ∀ (rows : List ChunkRow) (acc : List CallerInfo),
    acc.length < mr →
    findCallersLoop sym mr acc (acc.map (fun c => c.name)) rows =
      (acc ++ (dedupRows (acc.map (fun c => c.name))
        (rows.filter fun r => callsEntryMatch r.calls sym)).map
          mkCallerInfo).take mr := by
  intro rows
  induction rows with
  | nil =>
    intro acc h
    simp only [findCallersLoop, List.filter_nil, dedupRows, List.map_nil,
      List.append_nil]
    rw [List.take_of_length_le (le_of_lt h)]
  | cons r rest ih =>
    intro acc h
    simp only [findCallersLoop]
    split_ifs with h1 h2 h3 h4
    · rw [decide_eq_true_eq] at h1
      have hem : callsEntryMatch r.calls sym = false := by
        rw [h1]
        exact callsEntryMatch_nil sym hsym
      rw [List.filter_cons_of_neg (by rw [hem]; exact Bool.false_ne_true)]
      exact ih acc h
    · have hem : callsEntryMatch r.calls sym = false := by simpa using h2
      rw [List.filter_cons_of_neg (by rw [hem]; exact Bool.false_ne_true)]
      exact ih acc h
    · have hem : callsEntryMatch r.calls sym = true := by simpa using h2
      rw [List.filter_cons_of_pos (by simpa using hem)]
      simp only [dedupRows, h3, if_true]
      exact ih acc h
    · have hem : callsEntryMatch r.calls sym = true := by simpa using h2
      have h3' : ((acc.map (fun c => c.name)).any
          fun n => decide (n = r.name)) = false := by simpa using h3
      rw [List.filter_cons_of_pos (by simpa using hem)]
      simp only [dedupRows, h3', Bool.false_eq_true, if_false,
        List.map_cons]
      have hlen : (acc ++ [mkCallerInfo r]).length = mr := by
        simp only [List.length_append, List.length_singleton] at h4 ⊢
        omega
      have hshape : acc ++ mkCallerInfo r ::
          (dedupRows (acc.map (fun c => c.name) ++ [r.name])
            (rest.filter fun r2 => callsEntryMatch r2.calls sym)).map
              mkCallerInfo =
          (acc ++ [mkCallerInfo r]) ++
          (dedupRows (acc.map (fun c => c.name) ++ [r.name])
            (rest.filter fun r2 => callsEntryMatch r2.calls sym)).map
              mkCallerInfo := by
        rw [List.append_assoc]
        rfl
      rw [hshape, List.take_append_of_le_length (le_of_eq hlen.symm),
        ← hlen, List.take_length]
    · have hem : callsEntryMatch r.calls sym = true := by simpa using h2
      have h3' : ((acc.map (fun c => c.name)).any
          fun n => decide (n = r.name)) = false := by simpa using h3
      rw [List.filter_cons_of_pos (by simpa using hem)]
      simp only [dedupRows, h3', Bool.false_eq_true, if_false,
        List.map_cons]
      have hmapeq : acc.map (fun c => c.name) ++ [r.name] =
          (acc ++ [mkCallerInfo r]).map (fun c => c.name) := by
        rw [List.map_append]
        rfl
      have hlt : (acc ++ [mkCallerInfo r]).length < mr := by
        simp only [List.length_append, List.length_singleton] at h4 ⊢
        omega
      rw [hmapeq]
      rw [ih (acc ++ [mkCallerInfo r]) hlt]
      rw [List.append_assoc]
      rfl

/-- Claim C4 (amended): every caller returned by `FindCallers` comes from a
chunk whose parsed comma-separated calls list contains a trimmed entry
equal to the symbol or ending in `"." + symbol` (substring-only rows are
excluded) and satisfying the path scope; the result is deduplicated by
caller name and holds at most `max` entries; and the result is EXACTLY the
filter-deduplicate-truncate pipeline of the claim only when at most
`3 × max` rows match the SQL `calls LIKE` prefilter — beyond that the
`LIMIT maxResults*3` window can starve genuine callers. -/
theorem findCallers_spec (tbl : List ChunkRow) (sym : Str)
    (maxResults : Int) (pathScope : Option Str) (hsym : sym ≠ []) :
    (∀ c ∈ findCallers tbl sym maxResults pathScope,
      ∃ r ∈ tbl, c = mkCallerInfo r ∧ callsEntryMatch r.calls sym = true ∧
        scopeOk pathScope r = true) ∧
    ((findCallers tbl sym maxResults pathScope).map
      (fun c => c.name)).Nodup ∧
    (findCallers tbl sym maxResults pathScope).length ≤ mrOf maxResults ∧
    ((tbl.filter (rowPrefilter sym pathScope)).length ≤
        mrOf maxResults * 3 →
      findCallers tbl sym maxResults pathScope =
        claimFindCallers tbl sym (mrOf maxResults) pathScope) := by
  have hmr : 0 < mrOf maxResults := by
    unfold mrOf
    split
    · omega
    · omega
  refine ⟨?_, ?_, ?_, ?_⟩
  · intro c hc
    simp only [findCallers] at hc
    rcases findCallersLoop_mem sym (mrOf maxResults) _ [] [] c hc with
      h | ⟨r, hr, hm, he⟩
    · exact absurd h (List.not_mem_nil c)
    · have hr2 := List.mem_of_mem_take hr
      obtain ⟨htbl, hpref⟩ := List.mem_filter.mp hr2
      unfold rowPrefilter at hpref
      rw [Bool.and_eq_true] at hpref
      exact ⟨r, htbl, he, hm, hpref.2⟩
  · simp only [findCallers]
    exact findCallersLoop_nodup sym (mrOf maxResults) _ [] []
      (by simp) (by simp)
  · simp only [findCallers]
    exact findCallersLoop_length sym (mrOf maxResults) _ [] []
      (by simpa using hmr)
  · intro hcount
    simp only [findCallers]
    rw [List.take_of_length_le (by
      calc (tbl.filter (rowPrefilter sym pathScope)).length
          ≤ mrOf maxResults * 3 := hcount)]
    have hseen : ([] : List Str) =
        ([] : List CallerInfo).map (fun c => c.name) := rfl
    rw [hseen, findCallersLoop_eq sym (mrOf maxResults) hsym _ []
      (by simpa using hmr)]
    simp only [List.map_nil, List.nil_append]
    unfold claimFindCallers
    congr 1
    congr 1
    rw [List.filter_filter]
    congr 1
    apply List.filter_congr
    intro r _
    cases hem : callsEntryMatch r.calls sym with
    | false => simp [rowPrefilter, hem]
    | true =>
      simp [rowPrefilter, hem, entryMatch_implies_like r.calls sym hem]

/-- Witness for C4's amended theorem on the concrete starvation table with
symbol `f` and cap 1. -/
theorem findCallers_spec_witness :
    str "f" ≠ [] ∧
    (findCallers cexLikeTable (str "f") 1 none).length ≤ mrOf 1 := by
  refine ⟨by decide, ?_⟩
  exact (findCallers_spec cexLikeTable (str "f") 1 none (by decide)).2.2.1

/-- Claim C4 counterexample: on `cexLikeTable` with `max = 1` the SQL
prefilter window `LIMIT 3` holds only substring-false-positive rows, so
`FindCallers` returns nothing even though one chunk genuinely calls `f` —
the claim's "returns exactly those chunks ... truncated at max" fails. -/
theorem findCallers_limit_starvation_cex :
    findCallers cexLikeTable (str "f") 1 none = [] ∧
    crow "g" "f" ∈ cexLikeTable ∧
    callsEntryMatch (crow "g" "f").calls (str "f") = true ∧
    claimFindCallers cexLikeTable (str "f") (mrOf 1) none =
      [mkCallerInfo (crow "g" "f")] := by
  refine ⟨by decide, by decide, by decide, by decide⟩

/-- Auxiliary: `FindCallers` returns at most its (defaulted) cap. -/
theorem findCallers_length_le (tbl : List ChunkRow) (sym : Str)
    (maxResults : Int) (pathScope : Option Str) :
    (findCallers tbl sym maxResults pathScope).length ≤ mrOf maxResults := by
  have hmr : 0 < mrOf maxResults := by
    unfold mrOf
    split
    · omega
    · omega
  simp only [findCallers]
  exact findCallersLoop_length sym (mrOf maxResults) _ [] []
    (by simpa using hmr)

/-- Auxiliary: the unseen-filter pass keeps at most as many callers as it
was given, and emits exactly one next-level symbol per kept caller. -/
theorem addCallers_length (cs : List CallerInfo) : ∀ seen : List Str,
    (addCallers cs seen).1.length ≤ cs.length ∧
    (addCallers cs seen).2.1.length = (addCallers cs seen).1.length := by
  induction cs with
  | nil =>
    intro seen
    simp [addCallers]
  | cons c rest ih =>
    intro seen
    simp only [addCallers]
    split_ifs with h
    · obtain ⟨h1, h2⟩ := ih seen
      exact ⟨Nat.le_succ_of_le h1, h2⟩
    · obtain ⟨h1, h2⟩ := ih (seen ++ [c.name])
      constructor
      · simpa using Nat.succ_le_succ h1
      · simp [h2]

/-- Auxiliary: one level of the deep traversal collects at most
`cap × (symbols at the previous level)` callers, and hands exactly one
next symbol per collected caller. -/
theorem levelPass_length (tbl : List ChunkRow) (cap : Int)
    (pathScope : Option Str) : ∀ (syms : List Str) (seen : List Str),
    (levelPass tbl cap pathScope syms seen).1.length ≤
      mrOf cap * syms.length ∧
    (levelPass tbl cap pathScope syms seen).2.1.length =
      (levelPass tbl cap pathScope syms seen).1.length := by
  intro syms
  induction syms with
  | nil =>
    intro seen
    simp [levelPass]
  | cons s rest ih =>
    intro seen
    simp only [levelPass]
    obtain ⟨ha1, ha2⟩ :=
      addCallers_length (findCallers tbl s cap pathScope) seen
    obtain ⟨hb1, hb2⟩ := ih (addCallers (findCallers tbl s cap pathScope)
      seen).2.2
    constructor
    · rw [List.length_append]
      have hone : (addCallers (findCallers tbl s cap pathScope)
          seen).1.length ≤ mrOf cap :=
        ha1.trans (findCallers_length_le tbl s cap pathScope)
      calc _ ≤ mrOf cap + mrOf cap * rest.length :=
            Nat.add_le_add hone hb1
        _ = mrOf cap * (s :: rest).length := by
            rw [List.length_cons]
            ring
    · rw [List.length_append, List.length_append, ha2, hb2]

/-- Auxiliary: the first level produced by the traversal loop respects the
per-previous-level bound. -/
theorem deepLoop_head_le (tbl : List ChunkRow) (cap : Int)
    (pathScope : Option Str) :
    ∀ (d : Nat) (current seen : List Str) (l0 : List CallerInfo),
    (deepLoop tbl cap pathScope d current seen).head? = some l0 →
    l0.length ≤ mrOf cap * current.length := by
  intro d
  cases d with
  | zero =>
    intro current seen l0 h
    simp [deepLoop] at h
  | succ d =>
    intro current seen l0 h
    simp only [deepLoop] at h
    split_ifs at h with hp
    · simp at h
    · simp only [List.head?_cons, Option.some.injEq] at h
      subst h
      exact (levelPass_length tbl cap pathScope current seen).1

/-- Auxiliary: successive levels of the traversal loop are bounded by
`cap ×` the previous level's size. -/
theorem deepLoop_chain (tbl : List ChunkRow) (cap : Int)
    (pathScope : Option Str) :
    ∀ (d : Nat) (current seen : List Str),
    List.Chain' (fun l l2 => l2.length ≤ mrOf cap * l.length)
      (deepLoop tbl cap pathScope d current seen) := by
  intro d
  induction d with
  | zero =>
    intro current seen
    simp [deepLoop]
  | succ d ih =>
    intro current seen
    simp only [deepLoop]
    split_ifs with hp
    · exact List.chain'_nil
    · rw [List.chain'_cons']
      refine ⟨?_, ih _ _⟩
      intro l2 hl2
      have hhead := deepLoop_head_le tbl cap pathScope d _ _ l2
        (Option.mem_def.mp hl2)
      rw [(levelPass_length tbl cap pathScope current seen).2] at hhead
      exact hhead

/-- Claim C8 (amended): in the map returned by `FindCallersDeep`, level 1
contains at most `per_level_cap` callers, and each deeper level contains at
most `per_level_cap × (size of the previous level)` callers — the cap is
applied per expanded symbol, not per level, so a level after the first may
exceed `per_level_cap`. -/
theorem findCallersDeep_level_caps (tbl : List ChunkRow) (sym : Str)
    (depth maxPerLevel : Int) (pathScope : Option Str) :
    (∀ l0, (findCallersDeep tbl sym depth maxPerLevel pathScope).head? =
        some l0 →
      l0.length ≤ mrOf (if maxPerLevel ≤ 0 then 10 else maxPerLevel)) ∧
    List.Chain' (fun l l2 => l2.length ≤
        mrOf (if maxPerLevel ≤ 0 then 10 else maxPerLevel) * l.length)
      (findCallersDeep tbl sym depth maxPerLevel pathScope) := by
  constructor
  · intro l0 h
    have := deepLoop_head_le tbl (if maxPerLevel ≤ 0 then 10 else
      maxPerLevel) pathScope (if depth ≤ 0 then 3 else depth.toNat)
      [sym] [sym] l0 h
    simpa using this
  · exact deepLoop_chain tbl (if maxPerLevel ≤ 0 then 10 else maxPerLevel)
      pathScope (if depth ≤ 0 then 3 else depth.toNat) [sym] [sym]

/-- Witness for C8's amended theorem on the concrete call graph: level 1
of the traversal from `S` with cap 2 holds the two direct callers. -/
theorem findCallersDeep_level_caps_witness :
    (findCallersDeep cexDeepTable (str "S") 2 2 none).head? =
      some [mkCallerInfo (crow "A" "S"), mkCallerInfo (crow "B" "S")] ∧
    (2 : Nat) ≤ mrOf 2 := by
  refine ⟨by decide, ?_⟩
  have h := (findCallersDeep_level_caps cexDeepTable (str "S") 2 2
    none).1 [mkCallerInfo (crow "A" "S"), mkCallerInfo (crow "B" "S")]
    (by decide)
  simpa using h

/-- Claim C8 counterexample: with per-level cap 2, expanding the two
level-1 callers yields a level 2 of four entries — a level exceeds the
cap, refuting the at-most-`per_level_cap`-per-level claim. -/
theorem findCallersDeep_level_cap_cex :
    ((findCallersDeep cexDeepTable (str "S") 2 2 none).map
      (fun l => l.length)) = [2, 4] ∧
    ((findCallersDeep cexDeepTable (str "S") 2 2 none).any
      (fun l => decide (2 < l.length))) = true := by
  refine ⟨by decide, by decide⟩

/-- Auxiliary: `strings.Fields` yields nonempty terms. -/
theorem fieldsStr_ne_nil : ∀ s : Str, ∀ p ∈ fieldsStr s, p ≠ [] := by
  intro s p hp
  unfold fieldsStr at hp
  have hkeep := List.of_mem_filter hp
  simp only [Bool.not_eq_true', List.isEmpty_eq_false] at hkeep
  exact hkeep

/-- Auxiliary: the empty haystack contains no nonempty needle. -/
theorem strContains_nil (t : Str) (ht : t ≠ []) :
    strContains [] t = false := by
  cases t with
  | nil => exact absurd rfl ht
  | cons a t2 =>
    rw [strContains]
    simp [List.isPrefixOf]

/-- Auxiliary: the keyword boost computes the clamped claim formula
`min 1 (similarity + 0.3 * (K/T))` whenever the unboosted similarity is at
most 1 and the query terms are nonempty strings. -/
theorem boostedSim_min (queryTerms : List Str) (name : Str)
    (similarity : ℚ) (hsim : similarity ≤ 1)
    (hterms : ∀ t ∈ queryTerms, t ≠ []) :
    boostedSim queryTerms name similarity =
      min 1 (similarity + 3/10 *
        (((queryTerms.filter fun t =>
            strContains (toLowerStr name) t).length : ℚ) /
          (queryTerms.length : ℚ))) := by
  unfold boostedSim
  by_cases hT : queryTerms.length = 0
  · rw [List.length_eq_zero] at hT
    subst hT
    simp [min_eq_right hsim]
  · by_cases hname : name = []
    · subst hname
      have hfil : (queryTerms.filter fun t =>
          strContains (toLowerStr []) t) = [] := by
        apply List.filter_eq_nil_iff.mpr
        intro t ht
        rw [toLowerStr]
        simp only [List.map_nil]
        rw [strContains_nil t (hterms t ht)]
        exact Bool.false_ne_true
      rw [hfil]
      simp [hT, min_eq_right hsim]
    · rw [if_pos ⟨hT, hname⟩]
      by_cases hK : 0 < (queryTerms.filter fun t =>
          strContains (toLowerStr name) t).length
      · rw [if_pos hK]
        have hmc : ((queryTerms.filter fun t =>
            strContains (toLowerStr name) t).length : ℚ) /
            (queryTerms.length : ℚ) * (3/10) =
            3/10 * (((queryTerms.filter fun t =>
              strContains (toLowerStr name) t).length : ℚ) /
            (queryTerms.length : ℚ)) := by ring
        rw [hmc]
        by_cases hb : 1 < similarity + 3/10 *
            (((queryTerms.filter fun t =>
              strContains (toLowerStr name) t).length : ℚ) /
            (queryTerms.length : ℚ))
        · rw [if_pos hb, min_eq_left hb.le]
        · rw [if_neg hb, min_eq_right (not_lt.mp hb)]
      · rw [if_neg hK]
        have hK0 : (queryTerms.filter fun t =>
            strContains (toLowerStr name) t).length = 0 := by omega
        rw [hK0]
        simp [min_eq_right hsim]

/-- Auxiliary: a result emitted for a candidate carries the candidate's
name and its boosted similarity. -/
theorem searchRow_some (queryTerms : List Str) (opts : SearchOpts)
    (cwd : Str) (relFn : Str → Option Str) (c : VecCandidate)
    (x : SearchResult)
    (h : searchRow queryTerms opts cwd relFn c = some x) :
    x.name = c.row.name ∧
    x.similarity = boostedSim queryTerms c.row.name (1 - c.distance) := by
  simp only [searchRow] at h
  by_cases hcwd : cwd ≠ []
  · rw [if_pos hcwd] at h
    split_ifs at h <;> try exact Option.noConfusion h
    cases hrel : relFn c.row.absolute_path with
    | none =>
      rw [hrel] at h
      exact Option.noConfusion h
    | some rel =>
      rw [hrel] at h
      dsimp only at h
      split_ifs at h <;> try exact Option.noConfusion h
      injection h with h
      subst h
      exact ⟨rfl, rfl⟩
  · rw [if_neg hcwd] at h
    split_ifs at h <;> try exact Option.noConfusion h
    dsimp only at h
    split_ifs at h <;> try exact Option.noConfusion h
    injection h with h
    subst h
    exact ⟨rfl, rfl⟩

/-- Claim C7: every result returned by `Search` reports as similarity the
cosine similarity `1 - distance` plus `0.3 × (K/T)` clamped above at 1,
where `T` counts the whitespace-separated lowercased query terms and `K`
those occurring as substrings of the candidate's lowercased name; and the
result list is a descending-by-boosted-similarity reordering of the
filtered candidates truncated to the (defaulted) limit. -/
theorem searchStore_spec (rows : List VecCandidate) (query cwd : Str)
    (relFn : Str → Option Str) (opts : SearchOpts)
    (hd : ∀ c ∈ rows, 0 ≤ c.distance) :
    (∀ x ∈ searchStore rows query cwd relFn opts, ∃ c ∈ rows,
      x.name = c.row.name ∧
      x.similarity = min 1 ((1 - c.distance) + 3/10 *
        ((((fieldsStr (toLowerStr query)).filter fun t =>
            strContains (toLowerStr c.row.name) t).length : ℚ) /
          ((fieldsStr (toLowerStr query)).length : ℚ)))) ∧
    (searchStore rows query cwd relFn opts).Sorted
      (fun a b => b.similarity ≤ a.similarity) ∧
    (searchStore rows query cwd relFn opts).length ≤
      (if opts.limit ≤ 0 then 5 else opts.limit).toNat ∧
    ∃ l : List SearchResult,
      l.Perm (rows.filterMap
        (searchRow (fieldsStr (toLowerStr query)) opts cwd relFn)) ∧
      l.Sorted (fun a b => b.similarity ≤ a.similarity) ∧
      searchStore rows query cwd relFn opts =
        l.take (if opts.limit ≤ 0 then 5 else opts.limit).toNat := by
  have hterms : ∀ t ∈ fieldsStr (toLowerStr query), t ≠ [] :=
    fieldsStr_ne_nil _
  have htrans : ∀ a b c2 : SearchResult,
      decide (b.similarity ≤ a.similarity) = true →
      decide (c2.similarity ≤ b.similarity) = true →
      decide (c2.similarity ≤ a.similarity) = true := by
    intro a b c2 h1 h2
    rw [decide_eq_true_eq] at h1 h2 ⊢
    exact h2.trans h1
  have htotal : ∀ a b : SearchResult,
      (decide (b.similarity ≤ a.similarity) ||
        decide (a.similarity ≤ b.similarity)) = true := by
    intro a b
    rcases le_total a.similarity b.similarity with h | h
    · simp [h]
    · simp [h]
  have hsorted := List.sorted_mergeSort htrans htotal
    (rows.filterMap (searchRow (fieldsStr (toLowerStr query)) opts cwd
      relFn))
  have hperm := List.mergeSort_perm
    (rows.filterMap (searchRow (fieldsStr (toLowerStr query)) opts cwd
      relFn))
    (fun a b => decide (b.similarity ≤ a.similarity))
  have hsorted2 : (List.mergeSort (rows.filterMap
      (searchRow (fieldsStr (toLowerStr query)) opts cwd relFn))
      (fun a b => decide (b.similarity ≤ a.similarity))).Pairwise
      (fun a b => b.similarity ≤ a.similarity) :=
    hsorted.imp (fun h => decide_eq_true_eq.mp h)
  refine ⟨?_, ?_, ?_, ?_⟩
  · intro x hx
    simp only [searchStore] at hx
    have hx2 := List.mem_of_mem_take hx
    have hx3 := (hperm.mem_iff).mp hx2
    obtain ⟨c, hc, hcx⟩ := List.mem_filterMap.mp hx3
    obtain ⟨hn, hs⟩ := searchRow_some _ _ _ _ _ _ hcx
    refine ⟨c, hc, hn, ?_⟩
    rw [hs, boostedSim_min _ _ _ (by have := hd c hc; linarith) hterms]
  · simp only [searchStore]
    exact List.Pairwise.sublist (List.take_sublist _ _) hsorted2
  · simp only [searchStore]
    exact List.length_take_le _ _
  · refine ⟨List.mergeSort (rows.filterMap
      (searchRow (fieldsStr (toLowerStr query)) opts cwd relFn))
      (fun a b => decide (b.similarity ≤ a.similarity)),
      hperm, hsorted2, rfl⟩

/-- Witness for C7's theorem on a single candidate at distance 1/2 with
query `greet`: the returned list fits within the default limit. -/
theorem searchStore_spec_witness :
    (∀ c ∈ cexSearchRows, 0 ≤ c.distance) ∧
    (searchStore cexSearchRows (str "greet") [] (fun _ => none)
      cexSearchOpts).length ≤
      (if cexSearchOpts.limit ≤ 0 then 5 else cexSearchOpts.limit).toNat
    := by
  refine ⟨?_, ?_⟩
  · intro c hc
    simp only [cexSearchRows, List.mem_singleton] at hc
    subst hc
    norm_num
  · exact (searchStore_spec cexSearchRows (str "greet") [] (fun _ => none)
      cexSearchOpts (by
        intro c hc
        simp only [cexSearchRows, List.mem_singleton] at hc
        subst hc
        norm_num)).2.2.1

/-- Auxiliary: deleting chunks leaves the hash table unchanged. -/
theorem hashes_deleteFileChunks (p : Str) (s : IndexState) :
    (deleteFileChunks p s).hashes = s.hashes := rfl

/-- Auxiliary: setting a hash leaves the chunk table unchanged. -/
theorem chunks_setFileHash (root p h : Str) (s : IndexState) :
    (setFileHash root p h s).chunks = s.chunks := rfl

/-- Auxiliary: removing a hash leaves the chunk table unchanged. -/
theorem chunks_removeFileHash (root p : Str) (s : IndexState) :
    (removeFileHash root p s).chunks = s.chunks := rfl

/-- Auxiliary: adding chunks leaves the hash table unchanged. -/
theorem hashes_addChunks (cs : List Chunk) (s : IndexState) :
    (addChunks cs s).hashes = s.hashes := rfl

/-- Auxiliary: membership in the hash table after SetFileHash. -/
theorem mem_hashes_setFileHash (root p h : Str) (s : IndexState)
    (r : HashRow) :
    r ∈ (setFileHash root p h s).hashes ↔
      (r ∈ s.hashes ∧ ¬(r.project_path = root ∧ r.file_path = p)) ∨
        r = ⟨root, p, h⟩ := by
  simp only [setFileHash, List.mem_append, List.mem_filter,
    List.mem_singleton, Bool.not_eq_true', Bool.and_eq_false_imp,
    decide_eq_true_eq, decide_eq_false_iff_not, not_and]

/-- Auxiliary: membership in the hash table after RemoveFileHash. -/
theorem mem_hashes_removeFileHash (root p : Str) (s : IndexState)
    (r : HashRow) :
    r ∈ (removeFileHash root p s).hashes ↔
      r ∈ s.hashes ∧ ¬(r.project_path = root ∧ r.file_path = p) := by
  simp only [removeFileHash, List.mem_filter, Bool.not_eq_true',
    Bool.and_eq_false_imp, decide_eq_true_eq, decide_eq_false_iff_not,
    not_and]

/-- Auxiliary: membership in the chunk table after DeleteFileChunks. -/
theorem mem_chunks_deleteFileChunks (p : Str) (s : IndexState) (c : Chunk) :
    c ∈ (deleteFileChunks p s).chunks ↔ c ∈ s.chunks ∧ ¬ c.filePath = p := by
  simp only [deleteFileChunks, List.mem_filter, Bool.not_eq_true',
    decide_eq_false_iff_not]

/-- Auxiliary: membership in the chunk table after AddChunks. -/
theorem mem_chunks_addChunks (cs : List Chunk) (s : IndexState) (c : Chunk) :
    c ∈ (addChunks cs s).chunks ↔
      (c ∈ s.chunks ∧ ¬∃ c2 ∈ cs, c2.id = c.id) ∨ c ∈ cs := by
  simp only [addChunks, List.mem_append, List.mem_filter,
    Bool.not_eq_true', List.any_eq_false, decide_eq_true_eq]
  constructor
  · rintro (⟨h1, h2⟩ | h)
    · exact Or.inl ⟨h1, fun ⟨c2, hc2, he⟩ => h2 c2 hc2 he⟩
    · exact Or.inr h
  · rintro (⟨h1, h2⟩ | h)
    · exact Or.inl ⟨h1, fun c2 hc2 he => h2 ⟨c2, hc2, he⟩⟩
    · exact Or.inr h

/-- Auxiliary: after SetFileHash the path has a hash row. -/
theorem pathHasHash_setFileHash_self (root p h : Str) (s : IndexState) :
    pathHasHash (setFileHash root p h s) p :=
  ⟨⟨root, p, h⟩, (mem_hashes_setFileHash root p h s _).2 (Or.inr rfl), rfl⟩

/-- Auxiliary: SetFileHash does not change other paths' hash status. -/
theorem pathHasHash_setFileHash_other (root p h q : Str) (s : IndexState)
    (hq : q ≠ p) :
    pathHasHash (setFileHash root p h s) q ↔ pathHasHash s q := by
  constructor
  · rintro ⟨r, hr, hrq⟩
    rcases (mem_hashes_setFileHash root p h s r).1 hr with ⟨h1, -⟩ | rfl
    · exact ⟨r, h1, hrq⟩
    · exact absurd hrq.symm hq
  · rintro ⟨r, hr, hrq⟩
    refine ⟨r, (mem_hashes_setFileHash root p h s r).2 (Or.inl ⟨hr, ?_⟩), hrq⟩
    rintro ⟨-, h2⟩
    exact hq (hrq ▸ h2)

/-- Auxiliary: RemoveFileHash does not change other paths' hash status. -/
theorem pathHasHash_removeFileHash_other (root p q : Str) (s : IndexState)
    (hq : q ≠ p) :
    pathHasHash (removeFileHash root p s) q ↔ pathHasHash s q := by
  constructor
  · rintro ⟨r, hr, hrq⟩
    exact ⟨r, ((mem_hashes_removeFileHash root p s r).1 hr).1, hrq⟩
  · rintro ⟨r, hr, hrq⟩
    refine ⟨r, (mem_hashes_removeFileHash root p s r).2 ⟨hr, ?_⟩, hrq⟩
    rintro ⟨-, h2⟩
    exact hq (hrq ▸ h2)

/-- Auxiliary: on a single-root table, RemoveFileHash removes the path. -/
theorem pathHasHash_removeFileHash_self (root p : Str) (s : IndexState)
    (hroot : ∀ r ∈ s.hashes, r.project_path = root) :
    ¬ pathHasHash (removeFileHash root p s) p := by
  rintro ⟨r, hr, hrq⟩
  rcases (mem_hashes_removeFileHash root p s r).1 hr with ⟨h1, h2⟩
  exact h2 ⟨hroot r h1, hrq⟩

/-- Auxiliary: DeleteFileChunks removes the path's chunks. -/
theorem pathHasChunk_deleteFileChunks_self (p : Str) (s : IndexState) :
    ¬ pathHasChunk (deleteFileChunks p s) p := by
  rintro ⟨c, hc, hcq⟩
  exact ((mem_chunks_deleteFileChunks p s c).1 hc).2 hcq

/-- Auxiliary: DeleteFileChunks does not change other paths' chunks. -/
theorem pathHasChunk_deleteFileChunks_other (p q : Str) (s : IndexState)
    (hq : q ≠ p) :
    pathHasChunk (deleteFileChunks p s) q ↔ pathHasChunk s q := by
  constructor
  · rintro ⟨c, hc, hcq⟩
    exact ⟨c, ((mem_chunks_deleteFileChunks p s c).1 hc).1, hcq⟩
  · rintro ⟨c, hc, hcq⟩
    exact ⟨c, (mem_chunks_deleteFileChunks p s c).2 ⟨hc, fun h => hq (hcq ▸ h)⟩,
      hcq⟩

/-- Auxiliary: adding a nonempty batch for a path gives it chunks. -/
theorem pathHasChunk_addChunks_self (cs : List Chunk) (p : Str)
    (s : IndexState) (hne : cs ≠ []) (hcs : ∀ c ∈ cs, c.filePath = p) :
    pathHasChunk (addChunks cs s) p := by
  cases cs with
  | nil => exact absurd rfl hne
  | cons c t =>
    exact ⟨c, (mem_chunks_addChunks (c :: t) s c).2 (Or.inr (List.mem_cons_self c t)),
      hcs c (List.mem_cons_self c t)⟩

/-- Auxiliary: adding a batch for one path does not change other paths'
chunk status, given that chunk IDs carry their own paths. -/
theorem pathHasChunk_addChunks_other (cs : List Chunk) (p q : Str)
    (s : IndexState) (hid : ∀ c ∈ s.chunks, c.id.1 = c.filePath)
    (hcs : ∀ c ∈ cs, c.id.1 = p ∧ c.filePath = p) (hq : q ≠ p) :
    pathHasChunk (addChunks cs s) q ↔ pathHasChunk s q := by
  constructor
  · rintro ⟨c, hc, hcq⟩
    rcases (mem_chunks_addChunks cs s c).1 hc with ⟨h1, -⟩ | h1
    · exact ⟨c, h1, hcq⟩
    · exact absurd hcq (by rw [(hcs c h1).2]; exact fun h => hq h.symm)
  · rintro ⟨c, hc, hcq⟩
    refine ⟨c, (mem_chunks_addChunks cs s c).2 (Or.inl ⟨hc, ?_⟩), hcq⟩
    rintro ⟨c2, hc2, he⟩
    have h1 : c2.id.1 = p := (hcs c2 hc2).1
    have h2 : c.id.1 = c.filePath := hid c hc
    rw [he, h2, hcq] at h1
    exact hq h1

/-- Auxiliary: every chunk built for a file carries the file's path both
in its ID and in its path field. -/
theorem buildChunks_mem (m o : Nat) (path content : Str) (c : Chunk)
    (hc : c ∈ buildChunks m o path content) :
    c.id.1 = path ∧ c.filePath = path := by
  simp only [buildChunks, List.mem_map] at hc
  obtain ⟨pr, -, rfl⟩ := hc
  exact ⟨rfl, rfl⟩

/-- Auxiliary: the line chunker always emits at least one chunk. -/
theorem chunkByLines_ne_nil (m o : Nat) (content filePath : Str) :
    chunkByLines m o content filePath ≠ [] := by
  intro hh
  by_cases hlt : (splitOnChar '\n' content).length ≤ m
  · simp [chunkByLines, hlt] at hh
  · simp only [chunkByLines, if_neg hlt, List.map_eq_nil, splitStarts] at hh
    exact splitStartsAux_ne_nil _ _ _ _ _ hh

/-- Auxiliary: the per-file chunk list is never empty. -/
theorem buildChunks_ne_nil (m o : Nat) (path content : Str) :
    buildChunks m o path content ≠ [] := by
  simp only [buildChunks, ne_eq, List.map_eq_nil, List.enum_eq_nil,
    chunkFileLines, List.map_eq_nil]
  exact chunkByLines_ne_nil m o content path

/-- Auxiliary: processing a nonempty non-binary file builds its chunks. -/
theorem processFile_good (m o : Nat) (f : FsFile) (hf : GoodFile f) :
    processFile m o f = buildChunks m o f.path f.content := by
  have h1 : readFileContent f.content = f.content := by
    unfold readFileContent
    rw [hf.2]
    simp
  have h2 : ¬ f.content.isEmpty = true := by
    simp [hf.1]
  unfold processFile
  rw [h1, if_neg h2]

/-- Auxiliary: hash rows surviving the deleted-files pass are exactly the
rows whose root-key is not among the deleted paths. -/
theorem fold_rmdel_hashes_mem (root : Str) (ps : List Str) (s : IndexState)
    (r : HashRow) :
    r ∈ (ps.foldl
        (fun st p => removeFileHash root p (deleteFileChunks p st)) s).hashes ↔
      r ∈ s.hashes ∧ (r.project_path = root → r.file_path ∉ ps) := by
  induction ps generalizing s with
  | nil => simp
  | cons a t ih =>
    rw [List.foldl_cons, ih]
    simp only [mem_hashes_removeFileHash, hashes_deleteFileChunks,
      List.mem_cons]
    constructor
    · rintro ⟨⟨h1, h2⟩, h3⟩
      exact ⟨h1, fun hr hm => hm.elim (fun he => h2 ⟨hr, he⟩) (h3 hr)⟩
    · rintro ⟨h1, h2⟩
      exact ⟨⟨h1, fun hc => h2 hc.1 (Or.inl hc.2)⟩,
        fun hr hm => h2 hr (Or.inr hm)⟩

/-- Auxiliary: chunks surviving the deleted-files pass are exactly those
whose path is not among the deleted paths. -/
theorem fold_rmdel_chunks_mem (root : Str) (ps : List Str) (s : IndexState)
    (c : Chunk) :
    c ∈ (ps.foldl
        (fun st p => removeFileHash root p (deleteFileChunks p st)) s).chunks ↔
      c ∈ s.chunks ∧ c.filePath ∉ ps := by
  induction ps generalizing s with
  | nil => simp
  | cons a t ih =>
    rw [List.foldl_cons, ih]
    simp only [chunks_removeFileHash, mem_chunks_deleteFileChunks,
      List.mem_cons]
    constructor
    · rintro ⟨⟨h1, h2⟩, h3⟩
      exact ⟨h1, fun hm => hm.elim h2 h3⟩
    · rintro ⟨h1, h2⟩
      exact ⟨⟨h1, fun he => h2 (Or.inl he)⟩, fun hm => h2 (Or.inr hm)⟩

/-- Auxiliary: the modified-files chunk-deletion pass keeps the hashes. -/
theorem fold_del_hashes (ps : List Str) (s : IndexState) :
    (ps.foldl (fun st p => deleteFileChunks p st) s).hashes = s.hashes := by
  induction ps generalizing s with
  | nil => rfl
  | cons a t ih => rw [List.foldl_cons, ih, hashes_deleteFileChunks]

/-- Auxiliary: chunks surviving the modified-files chunk-deletion pass. -/
theorem fold_del_chunks_mem (ps : List Str) (s : IndexState) (c : Chunk) :
    c ∈ (ps.foldl (fun st p => deleteFileChunks p st) s).chunks ↔
      c ∈ s.chunks ∧ c.filePath ∉ ps := by
  induction ps generalizing s with
  | nil => simp
  | cons a t ih =>
    rw [List.foldl_cons, ih]
    simp only [mem_chunks_deleteFileChunks, List.mem_cons]
    constructor
    · rintro ⟨⟨h1, h2⟩, h3⟩
      exact ⟨h1, fun hm => hm.elim h2 h3⟩
    · rintro ⟨h1, h2⟩
      exact ⟨⟨h1, fun he => h2 (Or.inl he)⟩, fun hm => h2 (Or.inr hm)⟩

/-- Auxiliary: the processing step on a path found in the scan. -/
theorem indexStep_some (m o : Nat) (root : Str) (files : List FsFile)
    (acc : IndexState × IndexStats) (p : Str) (f : FsFile)
    (hf : files.find? (fun f2 => decide (f2.path = p)) = some f) :
    indexStep m o root files acc p =
      (setFileHash root p (hashOf f.content)
        (if (processFile m o f).isEmpty = true then acc.1
         else addChunks (processFile m o f) acc.1),
       ⟨acc.2.inserted + (processFile m o f).length, acc.2.deleteCalls,
        acc.2.embedCalls + (processFile m o f).length⟩) := by
  unfold indexStep
  rw [hf]

/-- Auxiliary: the processing step on a path missing from the scan. -/
theorem indexStep_none (m o : Nat) (root : Str) (files : List FsFile)
    (acc : IndexState × IndexStats) (p : Str)
    (hf : files.find? (fun f2 => decide (f2.path = p)) = none) :
    indexStep m o root files acc p = acc := by
  unfold indexStep
  rw [hf]

/-- Auxiliary: hash rows with keys untouched by the processing loop
survive it. -/
theorem fold_indexStep_hashes_pres (m o : Nat) (root : Str)
    (files : List FsFile) (todo : List Str) :
    ∀ (acc : IndexState × IndexStats) (r : HashRow), r ∈ acc.1.hashes →
      (r.project_path = root → r.file_path ∉ todo) →
      r ∈ (todo.foldl (indexStep m o root files) acc).1.hashes := by
  induction todo with
  | nil => exact fun acc r hr _ => hr
  | cons q t ih =>
    intro acc r hr hkey
    rw [List.foldl_cons]
    apply ih
    · cases hfq : files.find? (fun f2 => decide (f2.path = q)) with
      | none =>
        rw [indexStep_none m o root files acc q hfq]
        exact hr
      | some f =>
        rw [indexStep_some m o root files acc q f hfq]
        apply (mem_hashes_setFileHash root q (hashOf f.content) _ r).2
        refine Or.inl ⟨?_, ?_⟩
        · have he : (if (processFile m o f).isEmpty = true then acc.1
              else addChunks (processFile m o f) acc.1).hashes =
              acc.1.hashes := by
            split
            · rfl
            · rfl
          rw [he]
          exact hr
        · rintro ⟨hroot, hp⟩
          exact hkey hroot (hp ▸ List.mem_cons_self q t)
    · exact fun hroot hm => hkey hroot (List.mem_cons_of_mem q hm)

/-- Auxiliary: the processing loop installs the fresh hash row of every
path it processes (paths are pairwise distinct). -/
theorem fold_indexStep_fresh (m o : Nat) (root : Str) (files : List FsFile)
    (p : Str) (f : FsFile)
    (hf : files.find? (fun f2 => decide (f2.path = p)) = some f)
    (todo : List Str) :
    ∀ acc : IndexState × IndexStats, todo.Nodup → p ∈ todo →
      (⟨root, p, hashOf f.content⟩ : HashRow) ∈
        (todo.foldl (indexStep m o root files) acc).1.hashes := by
  induction todo with
  | nil =>
    intro acc _ hp
    cases hp
  | cons q t ih =>
    intro acc hnd hp
    rw [List.foldl_cons]
    rcases List.mem_cons.1 hp with rfl | hm
    · apply fold_indexStep_hashes_pres
      · rw [indexStep_some m o root files acc p f hf]
        exact (mem_hashes_setFileHash root p (hashOf f.content) _ _).2
          (Or.inr rfl)
      · intro _
        simpa using (List.nodup_cons.1 hnd).1
    · exact ih _ (List.nodup_cons.1 hnd).2 hm

/-- Auxiliary: every hash row after the processing loop is either an
untouched old row or the fresh row of a processed path. -/
theorem fold_indexStep_hashes_mem (m o : Nat) (root : Str)
    (files : List FsFile) (todo : List Str) :
    ∀ (acc : IndexState × IndexStats) (r : HashRow),
      (∀ p ∈ todo, ∃ f, files.find? (fun f2 => decide (f2.path = p)) = some f) →
      r ∈ (todo.foldl (indexStep m o root files) acc).1.hashes →
      (r ∈ acc.1.hashes ∧ (r.project_path = root → r.file_path ∉ todo)) ∨
        ∃ p ∈ todo, ∃ f,
          files.find? (fun f2 => decide (f2.path = p)) = some f ∧
            r = ⟨root, p, hashOf f.content⟩ := by
  induction todo with
  | nil =>
    intro acc r _ hr
    exact Or.inl ⟨hr, fun _ => List.not_mem_nil _⟩
  | cons q t ih =>
    intro acc r hfind hr
    obtain ⟨f, hf⟩ := hfind q (List.mem_cons_self q t)
    rw [List.foldl_cons, indexStep_some m o root files acc q f hf] at hr
    rcases ih _ r (fun p hp => hfind p (List.mem_cons_of_mem q hp)) hr with
      ⟨h1, h2⟩ | ⟨p, hp, f2, hf2, he⟩
    · rcases (mem_hashes_setFileHash root q (hashOf f.content) _ r).1 h1 with
        ⟨h3, h4⟩ | rfl
      · have he : (if (processFile m o f).isEmpty = true then acc.1
            else addChunks (processFile m o f) acc.1).hashes =
            acc.1.hashes := by
          split
          · rfl
          · rfl
        rw [he] at h3
        refine Or.inl ⟨h3, fun hroot hmem => ?_⟩
        rcases List.mem_cons.1 hmem with hq | hm
        · exact h4 ⟨hroot, hq⟩
        · exact h2 hroot hm
      · exact Or.inr ⟨q, List.mem_cons_self q t, f, hf, rfl⟩
    · exact Or.inr ⟨p, List.mem_cons_of_mem q hp, f2, hf2, he⟩

/-- Auxiliary: the processing loop repairs the hash/chunk correspondence
for every path it processes and preserves it elsewhere, for well-behaved
scans. -/
theorem fold_indexStep_inv (m o : Nat) (root : Str) (files : List FsFile)
    (hgood : ∀ f ∈ files, GoodFile f) (todo : List Str) :
    ∀ acc : IndexState × IndexStats, todo.Nodup →
      (∀ p ∈ todo, ∃ f, files.find? (fun f2 => decide (f2.path = p)) = some f) →
      (∀ r ∈ acc.1.hashes, r.project_path = root) →
      (∀ c ∈ acc.1.chunks, c.id.1 = c.filePath) →
      (∀ p, p ∉ todo → (pathHasHash acc.1 p ↔ pathHasChunk acc.1 p)) →
      (∀ r ∈ (todo.foldl (indexStep m o root files) acc).1.hashes,
          r.project_path = root) ∧
      (∀ c ∈ (todo.foldl (indexStep m o root files) acc).1.chunks,
          c.id.1 = c.filePath) ∧
      (∀ p, pathHasHash (todo.foldl (indexStep m o root files) acc).1 p ↔
          pathHasChunk (todo.foldl (indexStep m o root files) acc).1 p) := by
  induction todo with
  | nil =>
    intro acc _ _ h1 h2 h3
    exact ⟨h1, h2, fun p => h3 p (List.not_mem_nil p)⟩
  | cons q t ih =>
    intro acc hnd hfind hroots hid hinv
    obtain ⟨f, hf⟩ := hfind q (List.mem_cons_self q t)
    have hfile : f ∈ files := List.mem_of_find?_eq_some hf
    have hfp : f.path = q := by simpa using List.find?_some hf
    have hcs : processFile m o f = buildChunks m o f.path f.content :=
      processFile_good m o f (hgood f hfile)
    have hcsne : processFile m o f ≠ [] := by
      rw [hcs]
      exact buildChunks_ne_nil _ _ _ _
    have hcmem : ∀ c ∈ processFile m o f, c.id.1 = q ∧ c.filePath = q := by
      intro c hc
      rw [hcs] at hc
      have := buildChunks_mem m o f.path f.content c hc
      rw [hfp] at this
      exact this
    rw [List.foldl_cons, indexStep_some m o root files acc q f hf]
    have hif : (if (processFile m o f).isEmpty = true then acc.1
        else addChunks (processFile m o f) acc.1) =
        addChunks (processFile m o f) acc.1 := by
      rw [if_neg]
      simp [hcsne]
    rw [hif]
    apply ih
    · exact (List.nodup_cons.1 hnd).2
    · exact fun p hp => hfind p (List.mem_cons_of_mem q hp)
    · intro r hr
      rcases (mem_hashes_setFileHash root q (hashOf f.content) _ r).1 hr with
        ⟨h1, -⟩ | rfl
      · exact hroots r h1
      · rfl
    · intro c hc
      rcases (mem_chunks_addChunks (processFile m o f) acc.1 c).1 hc with
        ⟨h1, -⟩ | h1
      · exact hid c h1
      · have := hcmem c h1
        rw [this.1, this.2]
    · intro p hp
      by_cases hpq : p = q
      · subst hpq
        constructor
        · intro _
          exact pathHasChunk_addChunks_self (processFile m o f) p acc.1 hcsne
            fun c hc => (hcmem c hc).2
        · intro _
          exact pathHasHash_setFileHash_self root p (hashOf f.content) _
      · have h1 : pathHasHash
            (setFileHash root q (hashOf f.content)
              (addChunks (processFile m o f) acc.1)) p ↔
            pathHasHash acc.1 p :=
          pathHasHash_setFileHash_other root q (hashOf f.content) p _ hpq
        have h2 : pathHasChunk
            (setFileHash root q (hashOf f.content)
              (addChunks (processFile m o f) acc.1)) p ↔
            pathHasChunk acc.1 p := by
          have h3 : pathHasChunk (addChunks (processFile m o f) acc.1) p ↔
              pathHasChunk acc.1 p :=
            pathHasChunk_addChunks_other (processFile m o f) q p acc.1 hid
              hcmem hpq
          exact h3
        rw [h1, h2]
        exact hinv p fun hm => (List.mem_cons.1 hm).elim hpq hp

/-- Auxiliary: membership in the added list of the three-way diff. -/
theorem mem_getChangedFiles_added (root : Str) (s : IndexState)
    (files : List FsFile) (p : Str) :
    p ∈ (getChangedFiles root s files).1 ↔
      ∃ f ∈ files, f.path = p ∧
        ∀ r ∈ storedFor root s, ¬ r.file_path = p := by
  simp only [getChangedFiles, List.mem_map, List.mem_filter,
    Bool.not_eq_true', List.any_eq_false, decide_eq_true_eq]
  constructor
  · rintro ⟨f, ⟨hf, hall⟩, rfl⟩
    exact ⟨f, hf, rfl, hall⟩
  · rintro ⟨f, hf, rfl, hall⟩
    exact ⟨f, ⟨hf, hall⟩, rfl⟩

/-- Auxiliary: membership in the modified list of the three-way diff. -/
theorem mem_getChangedFiles_modified (root : Str) (s : IndexState)
    (files : List FsFile) (p : Str) :
    p ∈ (getChangedFiles root s files).2.1 ↔
      ∃ f ∈ files, f.path = p ∧
        ∃ r ∈ storedFor root s, r.file_path = p ∧
          ¬ r.hash = hashOf f.content := by
  simp only [getChangedFiles, List.mem_map, List.mem_filter,
    List.any_eq_true, Bool.and_eq_true, decide_eq_true_eq,
    Bool.not_eq_true', decide_eq_false_iff_not]
  constructor
  · rintro ⟨f, ⟨hf, r, hr, hrp, hrh⟩, rfl⟩
    exact ⟨f, hf, rfl, r, hr, hrp, hrh⟩
  · rintro ⟨f, hf, rfl, r, hr, hrp, hrh⟩
    exact ⟨f, ⟨hf, r, hr, hrp, hrh⟩, rfl⟩

/-- Auxiliary: membership in the deleted list of the three-way diff. -/
theorem mem_getChangedFiles_deleted (root : Str) (s : IndexState)
    (files : List FsFile) (p : Str) :
    p ∈ (getChangedFiles root s files).2.2 ↔
      ∃ r ∈ storedFor root s, r.file_path = p ∧
        ∀ f ∈ files, ¬ f.path = p := by
  simp only [getChangedFiles, List.mem_map, List.mem_filter,
    Bool.not_eq_true', List.any_eq_false, decide_eq_true_eq]
  constructor
  · rintro ⟨r, ⟨hr, hall⟩, rfl⟩
    exact ⟨r, hr, rfl, hall⟩
  · rintro ⟨r, hr, rfl, hall⟩
    exact ⟨r, ⟨hr, hall⟩, rfl⟩

/-- Auxiliary: a scan of well-behaved files keeps them all. -/
theorem scanFiles_good (fs : List FsFile) (h : ∀ f ∈ fs, GoodFile f) :
    scanFiles fs = fs := by
  apply List.filter_eq_self.mpr
  intro f hf
  simp only [Bool.not_eq_true', List.isEmpty_eq_false]
  exact (h f hf).1

/-- Auxiliary: scanned files come from the tree. -/
theorem scanFiles_mem (fs : List FsFile) (f : FsFile)
    (hf : f ∈ scanFiles fs) : f ∈ fs :=
  List.mem_of_mem_filter hf

/-- Auxiliary: scanning preserves path distinctness. -/
theorem scanFiles_nodup (fs : List FsFile)
    (h : (fs.map (·.path)).Nodup) : ((scanFiles fs).map (·.path)).Nodup :=
  List.Nodup.sublist (List.Sublist.map _ (List.filter_sublist fs)) h

/-- Auxiliary: a path carried by some scanned file is found by find?. -/
theorem find_path_some (files : List FsFile) (p : Str)
    (h : ∃ f ∈ files, f.path = p) :
    ∃ f, files.find? (fun f2 => decide (f2.path = p)) = some f := by
  obtain ⟨f, hf, hp⟩ := h
  have h2 : (files.find? fun f2 => decide (f2.path = p)).isSome := by
    rw [List.find?_isSome]
    exact ⟨f, hf, by simp [hp]⟩
  exact Option.isSome_iff_exists.1 h2

/-- Auxiliary: the added ++ modified worklist has pairwise distinct paths
whenever the scan does. -/
theorem diff_nodup (root : Str) (s : IndexState) (files : List FsFile)
    (hnd : (files.map (·.path)).Nodup) :
    ((getChangedFiles root s files).1 ++
      (getChangedFiles root s files).2.1).Nodup := by
  rw [List.nodup_append]
  refine ⟨?_, ?_, ?_⟩
  · exact List.Nodup.sublist (List.Sublist.map _ (List.filter_sublist files))
      hnd
  · exact List.Nodup.sublist (List.Sublist.map _ (List.filter_sublist files))
      hnd
  · intro p hpa hpm
    obtain ⟨f1, -, -, hall⟩ := (mem_getChangedFiles_added root s files p).1 hpa
    obtain ⟨f2, -, -, r, hr, hrp, -⟩ :=
      (mem_getChangedFiles_modified root s files p).1 hpm
    exact hall r hr hrp

/-- Auxiliary: `IndexProject` preserves the single-root store shape on a
well-behaved scan. -/
theorem indexProject_wf (m o : Nat) (root : Str) (fs : List FsFile)
    (s : IndexState) (hfs : GoodFs fs) (hwf : WfIdx root s) :
    WfIdx root (indexProject m o root fs s).1 := by
  obtain ⟨hroots, hid, hinv⟩ := hwf
  have hgood : ∀ f ∈ scanFiles fs, GoodFile f :=
    fun f hf => hfs.2 f (scanFiles_mem fs f hf)
  have hndf : ((scanFiles fs).map (·.path)).Nodup := scanFiles_nodup fs hfs.1
  have hunf : (indexProject m o root fs s).1 =
      (((getChangedFiles root s (scanFiles fs)).1 ++
          (getChangedFiles root s (scanFiles fs)).2.1).foldl
        (indexStep m o root (scanFiles fs))
        ((getChangedFiles root s (scanFiles fs)).2.1.foldl
          (fun st p => deleteFileChunks p st)
          ((getChangedFiles root s (scanFiles fs)).2.2.foldl
            (fun st p => removeFileHash root p (deleteFileChunks p st)) s),
         ⟨0, (getChangedFiles root s (scanFiles fs)).2.2.length +
            (getChangedFiles root s (scanFiles fs)).2.1.length, 0⟩)).1 := rfl
  rw [hunf]
  set D := getChangedFiles root s (scanFiles fs) with hD
  set s1 := D.2.2.foldl
    (fun st p => removeFileHash root p (deleteFileChunks p st)) s with hs1
  set s2 := D.2.1.foldl (fun st p => deleteFileChunks p st) s1 with hs2
  have hnd2 : (D.1 ++ D.2.1).Nodup := diff_nodup root s (scanFiles fs) hndf
  have hfind2 : ∀ p ∈ D.1 ++ D.2.1,
      ∃ f, (scanFiles fs).find? (fun f2 => decide (f2.path = p)) = some f := by
    intro p hp
    apply find_path_some
    rcases List.mem_append.1 hp with h | h
    · obtain ⟨f, hf, hfp, -⟩ :=
        (mem_getChangedFiles_added root s (scanFiles fs) p).1 h
      exact ⟨f, hf, hfp⟩
    · obtain ⟨f, hf, hfp, -⟩ :=
        (mem_getChangedFiles_modified root s (scanFiles fs) p).1 h
      exact ⟨f, hf, hfp⟩
  have hroots2 : ∀ r ∈ s2.hashes, r.project_path = root := by
    intro r hr
    rw [hs2, fold_del_hashes, hs1] at hr
    exact hroots r ((fold_rmdel_hashes_mem root _ s r).1 hr).1
  have hid2 : ∀ c ∈ s2.chunks, c.id.1 = c.filePath := by
    intro c hc
    rw [hs2] at hc
    obtain ⟨hc1, -⟩ := (fold_del_chunks_mem _ _ c).1 hc
    rw [hs1] at hc1
    exact hid c ((fold_rmdel_chunks_mem root _ s c).1 hc1).1
  have hinv2 : ∀ p, p ∉ D.1 ++ D.2.1 →
      (pathHasHash s2 p ↔ pathHasChunk s2 p) := by
    intro p hp
    have hadd : p ∉ D.1 := fun h => hp (List.mem_append.2 (Or.inl h))
    have hmod : p ∉ D.2.1 := fun h => hp (List.mem_append.2 (Or.inr h))
    by_cases hdel : p ∈ D.2.2
    · apply iff_of_false
      · rintro ⟨r, hr, hrp⟩
        rw [hs2, fold_del_hashes, hs1] at hr
        obtain ⟨h1, h2⟩ := (fold_rmdel_hashes_mem root _ s r).1 hr
        exact h2 (hroots r h1) (by rw [hrp]; exact hdel)
      · rintro ⟨c, hc, hcp⟩
        rw [hs2] at hc
        obtain ⟨hc1, -⟩ := (fold_del_chunks_mem _ _ c).1 hc
        rw [hs1] at hc1
        exact ((fold_rmdel_chunks_mem root _ s c).1 hc1).2
          (by rw [hcp]; exact hdel)
    · have hh : pathHasHash s2 p ↔ pathHasHash s p := by
        constructor
        · rintro ⟨r, hr, hrp⟩
          rw [hs2, fold_del_hashes, hs1] at hr
          exact ⟨r, ((fold_rmdel_hashes_mem root _ s r).1 hr).1, hrp⟩
        · rintro ⟨r, hr, hrp⟩
          refine ⟨r, ?_, hrp⟩
          rw [hs2, fold_del_hashes, hs1]
          exact (fold_rmdel_hashes_mem root _ s r).2
            ⟨hr, fun _ => by rw [hrp]; exact hdel⟩
      have hc : pathHasChunk s2 p ↔ pathHasChunk s p := by
        constructor
        · rintro ⟨c, hc0, hcp⟩
          rw [hs2] at hc0
          obtain ⟨hc1, -⟩ := (fold_del_chunks_mem _ _ c).1 hc0
          rw [hs1] at hc1
          exact ⟨c, ((fold_rmdel_chunks_mem root _ s c).1 hc1).1, hcp⟩
        · rintro ⟨c, hc0, hcp⟩
          refine ⟨c, ?_, hcp⟩
          rw [hs2]
          apply (fold_del_chunks_mem _ _ c).2
          refine ⟨?_, by rw [hcp]; exact hmod⟩
          rw [hs1]
          exact (fold_rmdel_chunks_mem root _ s c).2
            ⟨hc0, by rw [hcp]; exact hdel⟩
      rw [hh, hc]
      exact hinv p
  exact fold_indexStep_inv m o root (scanFiles fs) hgood (D.1 ++ D.2.1)
    (s2, ⟨0, D.2.2.length + D.2.1.length, 0⟩) hnd2 hfind2 hroots2 hid2 hinv2

/-- Auxiliary: `UpdateFile` preserves the single-root store shape for a
nonempty non-binary file. -/
theorem updateFile_wf (m o : Nat) (root : Str) (f : FsFile) (s : IndexState)
    (hf : GoodFile f) (hwf : WfIdx root s) :
    WfIdx root (updateFile m o root f s) := by
  obtain ⟨hroots, hid, hinv⟩ := hwf
  have hcont : readFileContent f.content = f.content := by
    unfold readFileContent
    rw [hf.2]
    simp
  have hne : ¬ (readFileContent f.content).isEmpty = true := by
    rw [hcont]
    simp [hf.1]
  have hcsne : buildChunks m o f.path (readFileContent f.content) ≠ [] :=
    buildChunks_ne_nil _ _ _ _
  have hne2 : ¬ (buildChunks m o f.path
      (readFileContent f.content)).isEmpty = true := by
    simp only [List.isEmpty_eq_true]
    exact hcsne
  have hunf : updateFile m o root f s =
      setFileHash root f.path (hashOf (readFileContent f.content))
        (addChunks (buildChunks m o f.path (readFileContent f.content))
          (deleteFileChunks f.path s)) := by
    unfold updateFile
    rw [if_neg hne]
    dsimp only
    rw [if_neg hne2]
  rw [hunf, hcont]
  set cs := buildChunks m o f.path f.content with hcsdef
  set del := deleteFileChunks f.path s with hdel
  have hcsne2 : cs ≠ [] := by
    rw [hcsdef]
    exact buildChunks_ne_nil _ _ _ _
  have hcsmem : ∀ c ∈ cs, c.id.1 = f.path ∧ c.filePath = f.path := by
    intro c hc
    rw [hcsdef] at hc
    have := buildChunks_mem m o f.path f.content c hc
    exact ⟨this.1, this.2⟩
  refine ⟨?_, ?_, ?_⟩
  · intro r hr
    rcases (mem_hashes_setFileHash root f.path (hashOf f.content) _ r).1 hr
      with ⟨h1, -⟩ | rfl
    · exact hroots r h1
    · rfl
  · intro c hc
    rcases (mem_chunks_addChunks cs del c).1 hc with ⟨h1, -⟩ | h1
    · exact hid c ((mem_chunks_deleteFileChunks f.path s c).1 h1).1
    · rw [(hcsmem c h1).1, (hcsmem c h1).2]
  · intro p
    by_cases hpq : p = f.path
    · subst hpq
      apply iff_of_true
      · exact pathHasHash_setFileHash_self root f.path (hashOf f.content) _
      · have h3 : pathHasChunk (addChunks cs del) f.path :=
          pathHasChunk_addChunks_self cs f.path del hcsne2
            fun c hc => (hcsmem c hc).2
        exact h3
    · have hiddel : ∀ c ∈ del.chunks, c.id.1 = c.filePath := by
        intro c hc
        exact hid c ((mem_chunks_deleteFileChunks f.path s c).1 hc).1
      have h1 : pathHasHash
          (setFileHash root f.path (hashOf f.content) (addChunks cs del)) p ↔
          pathHasHash s p := by
        have := pathHasHash_setFileHash_other root f.path (hashOf f.content) p
          (addChunks cs del) hpq
        exact this
      have h2 : pathHasChunk
          (setFileHash root f.path (hashOf f.content) (addChunks cs del)) p ↔
          pathHasChunk s p := by
        have h3 : pathHasChunk (addChunks cs del) p ↔ pathHasChunk del p :=
          pathHasChunk_addChunks_other cs f.path p del hiddel hcsmem hpq
        have h4 : pathHasChunk del p ↔ pathHasChunk s p := by
          have := pathHasChunk_deleteFileChunks_other f.path p s hpq
          exact this
        exact h3.trans h4
      rw [h1, h2]
      exact hinv p

/-- Auxiliary: first-occurrence dedup of a list fully inside `seen` is
empty. -/
theorem distinctAux_all_seen (seen : List Str) (l : List Str)
    (h : ∀ x ∈ l, x ∈ seen) : distinctAux seen l = [] := by
  induction l with
  | nil => rfl
  | cons x t ih =>
    rw [distinctAux, if_pos]
    · exact ih fun y hy => h y (List.mem_cons_of_mem x hy)
    · simp only [List.any_eq_true, decide_eq_true_eq]
      exact ⟨x, h x (List.mem_cons_self x t), rfl⟩

/-- Auxiliary: dedup of a nonempty constant list is the singleton. -/
theorem distinctAux_const (root : Str) (l : List Str)
    (h : ∀ x ∈ l, x = root) (hne : l ≠ []) : distinctAux [] l = [root] := by
  cases l with
  | nil => exact absurd rfl hne
  | cons x t =>
    rw [distinctAux, if_neg (by simp)]
    have hx : x = root := h x (List.mem_cons_self x t)
    subst hx
    rw [distinctAux_all_seen]
    intro y hy
    rw [h y (List.mem_cons_of_mem x hy)]
    simp

/-- Auxiliary: a nonempty single-root hash table lists one folder. -/
theorem listIndexedFolders_root (root : Str) (s : IndexState)
    (hroots : ∀ r ∈ s.hashes, r.project_path = root)
    (hne : s.hashes ≠ []) : listIndexedFolders s = [root] := by
  apply distinctAux_const
  · intro x hx
    obtain ⟨r, hr, rfl⟩ := List.mem_map.1 hx
    exact hroots r hr
  · simp only [ne_eq, List.map_eq_nil]
    exact hne

/-- Auxiliary: an empty hash table lists no folders. -/
theorem listIndexedFolders_nil (s : IndexState) (h : s.hashes = []) :
    listIndexedFolders s = [] := by
  rw [listIndexedFolders, h]
  rfl

/-- Auxiliary: `DeleteFile` preserves the single-root store shape when the
file lies under the indexed root. -/
theorem deleteFileOp_wf (m o : Nat) (root : Str) (p : Str) (s : IndexState)
    (hp : hasPrefix p root = true) (hwf : WfIdx root s) :
    WfIdx root (deleteFileOp p s) := by
  obtain ⟨hroots, hid, hinv⟩ := hwf
  by_cases hnil : s.hashes = []
  · have hfold : listIndexedFolders (deleteFileChunks p s) = [] :=
      listIndexedFolders_nil _ (by rw [hashes_deleteFileChunks]; exact hnil)
    have hres : deleteFileOp p s = deleteFileChunks p s := by
      unfold deleteFileOp
      dsimp only
      rw [hfold]
      rfl
    rw [hres]
    refine ⟨?_, ?_, ?_⟩
    · intro r hr
      exact hroots r hr
    · intro c hc
      exact hid c ((mem_chunks_deleteFileChunks p s c).1 hc).1
    · intro q
      apply iff_of_false
      · rintro ⟨r, hr, -⟩
        rw [hashes_deleteFileChunks, hnil] at hr
        exact absurd hr (List.not_mem_nil r)
      · rintro ⟨c, hc, hcq⟩
        obtain ⟨hc1, -⟩ := (mem_chunks_deleteFileChunks p s c).1 hc
        obtain ⟨r, hr, -⟩ := (hinv q).2 ⟨c, hc1, hcq⟩
        rw [hnil] at hr
        exact absurd hr (List.not_mem_nil r)
  · have hfold : listIndexedFolders (deleteFileChunks p s) = [root] := by
      apply listIndexedFolders_root
      · intro r hr
        exact hroots r hr
      · rw [hashes_deleteFileChunks]
        exact hnil
    have hres : deleteFileOp p s =
        removeFileHash root p (deleteFileChunks p s) := by
      unfold deleteFileOp
      dsimp only
      rw [hfold]
      simp [List.find?, hp]
    rw [hres]
    refine ⟨?_, ?_, ?_⟩
    · intro r hr
      exact hroots r ((mem_hashes_removeFileHash root p _ r).1 hr).1
    · intro c hc
      exact hid c ((mem_chunks_deleteFileChunks p s c).1 hc).1
    · intro q
      by_cases hq : q = p
      · subst hq
        apply iff_of_false
        · apply pathHasHash_removeFileHash_self
          intro r hr
          exact hroots r hr
        · have h3 := pathHasChunk_deleteFileChunks_self q s
          exact fun hcc => h3 hcc
      · have h1 : pathHasHash (removeFileHash root p (deleteFileChunks p s)) q
            ↔ pathHasHash s q := by
          have := pathHasHash_removeFileHash_other root p q
            (deleteFileChunks p s) hq
          exact this
        have h2 : pathHasChunk (removeFileHash root p (deleteFileChunks p s)) q
            ↔ pathHasChunk s q := by
          have := pathHasChunk_deleteFileChunks_other p q s hq
          exact this
        rw [h1, h2]
        exact hinv q

/-- Auxiliary: hash rows surviving the folder-deletion pass are the rows
whose root-key does not lie under the deleted folder among the visited
paths. -/
theorem fold_delFolder_hashes_mem (root fp : Str) (qs : List Str)
    (s0 : IndexState) (r : HashRow) :
    r ∈ (qs.foldl (fun st q =>
        if hasPrefix q fp = true then
          removeFileHash root q (deleteFileChunks q st)
        else st) s0).hashes ↔
      r ∈ s0.hashes ∧ (r.project_path = root →
        ∀ q ∈ qs, hasPrefix q fp = true → ¬ r.file_path = q) := by
  induction qs generalizing s0 with
  | nil => simp
  | cons a t ih =>
    rw [List.foldl_cons, ih]
    by_cases ha : hasPrefix a fp = true
    · rw [if_pos ha]
      simp only [mem_hashes_removeFileHash, hashes_deleteFileChunks]
      constructor
      · rintro ⟨⟨h1, h2⟩, h3⟩
        refine ⟨h1, fun hr q hq hpre => ?_⟩
        rcases List.mem_cons.1 hq with rfl | hq2
        · exact fun he => h2 ⟨hr, he⟩
        · exact h3 hr q hq2 hpre
      · rintro ⟨h1, h2⟩
        refine ⟨⟨h1, fun hc => ?_⟩, fun hr q hq hpre => ?_⟩
        · exact h2 hc.1 a (List.mem_cons_self a t) ha hc.2
        · exact h2 hr q (List.mem_cons_of_mem a hq) hpre
    · rw [if_neg ha]
      constructor
      · rintro ⟨h1, h3⟩
        refine ⟨h1, fun hr q hq hpre => ?_⟩
        rcases List.mem_cons.1 hq with rfl | hq2
        · exact absurd hpre ha
        · exact h3 hr q hq2 hpre
      · rintro ⟨h1, h2⟩
        exact ⟨h1, fun hr q hq hpre =>
          h2 hr q (List.mem_cons_of_mem a hq) hpre⟩

/-- Auxiliary: chunks surviving the folder-deletion pass are those whose
path does not lie under the deleted folder among the visited paths. -/
theorem fold_delFolder_chunks_mem (root fp : Str) (qs : List Str)
    (s0 : IndexState) (c : Chunk) :
    c ∈ (qs.foldl (fun st q =>
        if hasPrefix q fp = true then
          removeFileHash root q (deleteFileChunks q st)
        else st) s0).chunks ↔
      c ∈ s0.chunks ∧
        ∀ q ∈ qs, hasPrefix q fp = true → ¬ c.filePath = q := by
  induction qs generalizing s0 with
  | nil => simp
  | cons a t ih =>
    rw [List.foldl_cons, ih]
    by_cases ha : hasPrefix a fp = true
    · rw [if_pos ha]
      simp only [chunks_removeFileHash, mem_chunks_deleteFileChunks]
      constructor
      · rintro ⟨⟨h1, h2⟩, h3⟩
        refine ⟨h1, fun q hq hpre => ?_⟩
        rcases List.mem_cons.1 hq with rfl | hq2
        · exact h2
        · exact h3 q hq2 hpre
      · rintro ⟨h1, h2⟩
        exact ⟨⟨h1, h2 a (List.mem_cons_self a t) ha⟩,
          fun q hq hpre => h2 q (List.mem_cons_of_mem a hq) hpre⟩
    · rw [if_neg ha]
      constructor
      · rintro ⟨h1, h3⟩
        refine ⟨h1, fun q hq hpre => ?_⟩
        rcases List.mem_cons.1 hq with rfl | hq2
        · exact absurd hpre ha
        · exact h3 q hq2 hpre
      · rintro ⟨h1, h2⟩
        exact ⟨h1, fun q hq hpre => h2 q (List.mem_cons_of_mem a hq) hpre⟩

/-- Auxiliary: `DeleteFolder` preserves the single-root store shape when
the folder lies under the indexed root. -/
theorem deleteFolderOp_wf (m o : Nat) (root : Str) (fp : Str)
    (s : IndexState) (hp : hasPrefix fp root = true) (hwf : WfIdx root s) :
    WfIdx root (deleteFolderOp fp s) := by
  obtain ⟨hroots, hid, hinv⟩ := hwf
  by_cases hnil : s.hashes = []
  · have hres : deleteFolderOp fp s = s := by
      unfold deleteFolderOp
      rw [listIndexedFolders_nil s hnil]
      rfl
    rw [hres]
    exact ⟨hroots, hid, hinv⟩
  · have hfold : listIndexedFolders s = [root] :=
      listIndexedFolders_root root s hroots hnil
    have hres : deleteFolderOp fp s =
        ((storedFor root s).map (·.file_path)).foldl
          (fun st q =>
            if hasPrefix q fp = true then
              removeFileHash root q (deleteFileChunks q st)
            else st) s := by
      unfold deleteFolderOp
      rw [hfold]
      simp [List.find?, hp]
    rw [hres]
    refine ⟨?_, ?_, ?_⟩
    · intro r hr
      exact hroots r ((fold_delFolder_hashes_mem root fp _ s r).1 hr).1
    · intro c hc
      exact hid c ((fold_delFolder_chunks_mem root fp _ s c).1 hc).1
    · intro x
      by_cases hx : x ∈ (storedFor root s).map (·.file_path) ∧
          hasPrefix x fp = true
      · obtain ⟨hx1, hx2⟩ := hx
        apply iff_of_false
        · rintro ⟨r, hr, hrx⟩
          obtain ⟨h1, h2⟩ := (fold_delFolder_hashes_mem root fp _ s r).1 hr
          exact h2 (hroots r h1) x hx1 hx2 hrx
        · rintro ⟨c, hc, hcx⟩
          obtain ⟨h1, h2⟩ := (fold_delFolder_chunks_mem root fp _ s c).1 hc
          exact h2 x hx1 hx2 hcx
      · have hcond : ∀ q ∈ (storedFor root s).map (·.file_path),
            hasPrefix q fp = true → ¬ x = q := by
          intro q hq hpre he
          exact hx ⟨he ▸ hq, he ▸ hpre⟩
        have h1 : pathHasHash (((storedFor root s).map (·.file_path)).foldl
            (fun st q =>
              if hasPrefix q fp = true then
                removeFileHash root q (deleteFileChunks q st)
              else st) s) x ↔ pathHasHash s x := by
          constructor
          · rintro ⟨r, hr, hrx⟩
            exact ⟨r, ((fold_delFolder_hashes_mem root fp _ s r).1 hr).1, hrx⟩
          · rintro ⟨r, hr, hrx⟩
            refine ⟨r, (fold_delFolder_hashes_mem root fp _ s r).2
              ⟨hr, fun _ q hq hpre hrq => ?_⟩, hrx⟩
            exact hcond q hq hpre (hrx.symm.trans hrq)
        have h2 : pathHasChunk (((storedFor root s).map (·.file_path)).foldl
            (fun st q =>
              if hasPrefix q fp = true then
                removeFileHash root q (deleteFileChunks q st)
              else st) s) x ↔ pathHasChunk s x := by
          constructor
          · rintro ⟨c, hc, hcx⟩
            exact ⟨c, ((fold_delFolder_chunks_mem root fp _ s c).1 hc).1, hcx⟩
          · rintro ⟨c, hc, hcx⟩
            refine ⟨c, (fold_delFolder_chunks_mem root fp _ s c).2
              ⟨hc, fun q hq hpre hcq => ?_⟩, hcx⟩
            exact hcond q hq hpre (hcx.symm.trans hcq)
        rw [h1, h2]
        exact hinv x

/-- Auxiliary: every well-behaved reachable state has the single-root
store shape. -/
theorem goodReach_wf (m o : Nat) (root : Str) (s : IndexState)
    (h : GoodReach m o root s) : WfIdx root s := by
  induction h with
  | init =>
    refine ⟨?_, ?_, ?_⟩
    · intro r hr
      exact absurd hr (List.not_mem_nil r)
    · intro c hc
      exact absurd hc (List.not_mem_nil c)
    · intro p
      apply iff_of_false
      · rintro ⟨r, hr, -⟩
        exact List.not_mem_nil r hr
      · rintro ⟨c, hc, -⟩
        exact List.not_mem_nil c hc
  | index fs s hfs hr ih => exact indexProject_wf m o root fs s hfs ih
  | update f s hf hr ih => exact updateFile_wf m o root f s hf ih
  | delFile p s hp hr ih => exact deleteFileOp_wf m o root p s hp ih
  | delFolder p s hp hr ih => exact deleteFolderOp_wf m o root p s hp ih

/-- C2: In every state reachable through the Indexer API over a
well-behaved filesystem (scans with distinct paths and nonempty non-binary
contents, watcher deletions under the indexed root), the file-hash table
and the chunk table cover exactly the same set of absolute paths: for every
hash row of path P there is a chunk row with that path, and conversely. -/
theorem indexer_hash_chunk_correspondence (m o : Nat) (root : Str)
    (s : IndexState) (h : GoodReach m o root s) (p : Str) :
    pathHasHash s p ↔ pathHasChunk s p :=
  (goodReach_wf m o root s h).2.2 p

/-- Witness: the correspondence holds concretely after indexing a
well-behaved one-file tree. -/
theorem indexer_hash_chunk_correspondence_witness :
    pathHasHash cexGoodState (str "/r/a.txt") ↔
      pathHasChunk cexGoodState (str "/r/a.txt") :=
  indexer_hash_chunk_correspondence 500 20 (str "/r") cexGoodState
    (GoodReach.index cexGoodFs ⟨[], []⟩
      (by
        refine ⟨by decide, ?_⟩
        intro f hf
        simp only [cexGoodFs, List.mem_singleton] at hf
        subst hf
        exact ⟨by decide, by decide⟩)
      GoodReach.init)
    (str "/r/a.txt")

/-- Counterexample to the unrestricted claim: indexing a tree holding a
binary file reaches a state with a hash row for the file but no chunk row
at all — `processFile` returns no chunks for a binary read, yet
`SetFileHash` still runs. -/
theorem indexer_hash_without_chunk_cex :
    IndexerReach 500 20 (str "/r") cexBinState ∧
      pathHasHash cexBinState (str "/r/a.bin") ∧
      ¬ pathHasChunk cexBinState (str "/r/a.bin") := by
  refine ⟨IndexerReach.index [cexBinFile] ⟨[], []⟩ IndexerReach.init, ?_, ?_⟩
  · show ∃ r ∈ cexBinState.hashes, r.file_path = str "/r/a.bin"
    decide
  · show ¬ ∃ c ∈ cexBinState.chunks, c.filePath = str "/r/a.bin"
    decide

/-- C6: Running IndexProject a second time immediately after a completed
run over the same tree (paths pairwise distinct, no filesystem change in
between) performs zero chunk insertions, zero chunk deletions and zero
embedding calls: the three-way diff of the second run is empty. -/
theorem indexProject_idempotent (m o : Nat) (root : Str) (fs : List FsFile)
    (s : IndexState) (hnd : (fs.map (·.path)).Nodup) :
    (indexProject m o root fs (indexProject m o root fs s).1).2 =
      ⟨0, 0, 0⟩ := by
  set files := scanFiles fs with hfi
  have hndf : (files.map (·.path)).Nodup := scanFiles_nodup fs hnd
  have hpathinj : ∀ f1 ∈ files, ∀ f2 ∈ files, f1.path = f2.path → f1 = f2 :=
    fun f1 h1 f2 h2 he => List.inj_on_of_nodup_map hndf h1 h2 he
  set D := getChangedFiles root s files with hD
  set S1 := (indexProject m o root fs s).1 with hS1
  have hndtodo : (D.1 ++ D.2.1).Nodup := diff_nodup root s files hndf
  have hfind : ∀ p ∈ D.1 ++ D.2.1,
      ∃ f, files.find? (fun f2 => decide (f2.path = p)) = some f := by
    intro p hp
    apply find_path_some
    rcases List.mem_append.1 hp with h | h
    · obtain ⟨f, hf, hfp, -⟩ := (mem_getChangedFiles_added root s files p).1 h
      exact ⟨f, hf, hfp⟩
    · obtain ⟨f, hf, hfp, -⟩ :=
        (mem_getChangedFiles_modified root s files p).1 h
      exact ⟨f, hf, hfp⟩
  have hunf1 : S1 = ((D.1 ++ D.2.1).foldl (indexStep m o root files)
      (D.2.1.foldl (fun st p => deleteFileChunks p st)
        (D.2.2.foldl
          (fun st p => removeFileHash root p (deleteFileChunks p st)) s),
       ⟨0, D.2.2.length + D.2.1.length, 0⟩)).1 := by
    rw [hS1, hD, hfi]
    exact rfl
  have hG1 : ∀ r ∈ storedFor root S1,
      ∃ f ∈ files, f.path = r.file_path ∧ r.hash = hashOf f.content := by
    intro r hr
    have hh := List.mem_filter.1 hr
    have hrroot : r.project_path = root := by simpa using hh.2
    have hrmem : r ∈ S1.hashes := hh.1
    rw [hunf1] at hrmem
    rcases fold_indexStep_hashes_mem m o root files (D.1 ++ D.2.1) _ r hfind
        hrmem with ⟨h1, h2⟩ | ⟨p, hp, f2, hf2, rfl⟩
    · have hnotodo : r.file_path ∉ D.1 ++ D.2.1 := h2 hrroot
      rw [fold_del_hashes] at h1
      obtain ⟨h3, h4⟩ := (fold_rmdel_hashes_mem root _ s r).1 h1
      have hnotdel : r.file_path ∉ D.2.2 := h4 hrroot
      have hrstored : r ∈ storedFor root s :=
        List.mem_filter.2 ⟨h3, by simp [hrroot]⟩
      have hex : ∃ f ∈ files, f.path = r.file_path := by
        by_contra hno
        push_neg at hno
        apply hnotdel
        rw [hD]
        apply (mem_getChangedFiles_deleted root s files r.file_path).2
        exact ⟨r, hrstored, rfl, fun f hf => hno f hf⟩
      obtain ⟨f, hfmem, hfp⟩ := hex
      refine ⟨f, hfmem, hfp, ?_⟩
      by_contra hneq
      apply hnotodo
      apply List.mem_append.2
      right
      rw [hD]
      apply (mem_getChangedFiles_modified root s files r.file_path).2
      exact ⟨f, hfmem, hfp, r, hrstored, rfl, hneq⟩
    · have hf2mem : f2 ∈ files := List.mem_of_find?_eq_some hf2
      have hf2p : f2.path = p := by simpa using List.find?_some hf2
      exact ⟨f2, hf2mem, hf2p, rfl⟩
  have hG2 : ∀ f ∈ files,
      ∃ r ∈ storedFor root S1, r.file_path = f.path := by
    intro f hf
    by_cases htodo : f.path ∈ D.1 ++ D.2.1
    · obtain ⟨f2, hf2⟩ := hfind f.path htodo
      have hfr : (⟨root, f.path, hashOf f2.content⟩ : HashRow) ∈
          S1.hashes := by
        rw [hunf1]
        exact fold_indexStep_fresh m o root files f.path f2 hf2
          (D.1 ++ D.2.1) _ hndtodo htodo
      exact ⟨⟨root, f.path, hashOf f2.content⟩,
        List.mem_filter.2 ⟨hfr, by simp⟩, rfl⟩
    · have hnotadd : f.path ∉ D.1 :=
        fun h => htodo (List.mem_append.2 (Or.inl h))
      have hex : ∃ r ∈ storedFor root s, r.file_path = f.path := by
        by_contra hno
        push_neg at hno
        apply hnotadd
        rw [hD]
        exact (mem_getChangedFiles_added root s files f.path).2
          ⟨f, hf, rfl, fun r hr => hno r hr⟩
      obtain ⟨r, hr, hrp⟩ := hex
      have hrroot : r.project_path = root := by
        simpa using (List.mem_filter.1 hr).2
      have hrs : r ∈ s.hashes := (List.mem_filter.1 hr).1
      have hrS1 : r ∈ S1.hashes := by
        rw [hunf1]
        apply fold_indexStep_hashes_pres
        · show r ∈ (D.2.1.foldl (fun st p => deleteFileChunks p st)
            (D.2.2.foldl
              (fun st p => removeFileHash root p (deleteFileChunks p st))
              s)).hashes
          rw [fold_del_hashes]
          apply (fold_rmdel_hashes_mem root _ s r).2
          refine ⟨hrs, fun _ hdel => ?_⟩
          rw [hD] at hdel
          obtain ⟨r2, -, -, hall⟩ :=
            (mem_getChangedFiles_deleted root s files r.file_path).1 hdel
          exact hall f hf (by rw [hrp])
        · intro _ hmem
          rw [hrp] at hmem
          exact htodo hmem
      exact ⟨r, List.mem_filter.2 ⟨hrS1, by simp [hrroot]⟩, hrp⟩
  have ha : (getChangedFiles root S1 files).1 = [] := by
    rw [List.eq_nil_iff_forall_not_mem]
    intro p hp
    obtain ⟨f, hf, rfl, hall⟩ :=
      (mem_getChangedFiles_added root S1 files p).1 hp
    obtain ⟨r, hr, hrp⟩ := hG2 f hf
    exact hall r hr hrp
  have hm : (getChangedFiles root S1 files).2.1 = [] := by
    rw [List.eq_nil_iff_forall_not_mem]
    intro p hp
    obtain ⟨f, hf, rfl, r, hr, hrp, hrh⟩ :=
      (mem_getChangedFiles_modified root S1 files p).1 hp
    obtain ⟨f2, hf2, hf2p, hf2h⟩ := hG1 r hr
    have he : f2 = f := hpathinj f2 hf2 f hf (by rw [hf2p, hrp])
    exact hrh (by rw [hf2h, he])
  have hd : (getChangedFiles root S1 files).2.2 = [] := by
    rw [List.eq_nil_iff_forall_not_mem]
    intro p hp
    obtain ⟨r, hr, rfl, hall⟩ :=
      (mem_getChangedFiles_deleted root S1 files p).1 hp
    obtain ⟨f2, hf2, hf2p, -⟩ := hG1 r hr
    exact hall f2 hf2 hf2p
  have hunf2 : (indexProject m o root fs S1).2 =
      (((getChangedFiles root S1 files).1 ++
          (getChangedFiles root S1 files).2.1).foldl
        (indexStep m o root files)
        ((getChangedFiles root S1 files).2.1.foldl
          (fun st p => deleteFileChunks p st)
          ((getChangedFiles root S1 files).2.2.foldl
            (fun st p => removeFileHash root p (deleteFileChunks p st)) S1),
         ⟨0, (getChangedFiles root S1 files).2.2.length +
            (getChangedFiles root S1 files).2.1.length, 0⟩)).2 := by
    rw [hfi]
    exact rfl
  rw [hunf2, ha, hm, hd]
  rfl

/-- Witness: re-running IndexProject on the one-file tree reports zero
insertions, deletions and embedding calls. -/
theorem indexProject_idempotent_witness :
    (cexGoodFs.map (·.path)).Nodup ∧
      (indexProject 500 20 (str "/r") cexGoodFs
        (indexProject 500 20 (str "/r") cexGoodFs ⟨[], []⟩).1).2 =
        ⟨0, 0, 0⟩ :=
  ⟨by decide,
   indexProject_idempotent 500 20 (str "/r") cexGoodFs ⟨[], []⟩ (by decide)⟩

/-- Auxiliary: `hasPrefix` holds exactly when the cleaned path equals the
cleaned folder or extends it at a separator boundary. -/
theorem hasPrefix_iff (x y : Str) :
    hasPrefix x y = true ↔
      ∃ t, cleanAbs x = cleanAbs y ++ t ∧
        (t = [] ∨ t.head? = some '/') := by
  unfold hasPrefix
  dsimp only
  constructor
  · intro h
    by_cases h1 : (cleanAbs x).length < (cleanAbs y).length
    · rw [if_pos h1] at h
      exact Bool.noConfusion h
    · rw [if_neg h1] at h
      by_cases h2 : (cleanAbs y).isPrefixOf (cleanAbs x) = true
      · rw [if_neg (by simp [h2])] at h
        have hpre : cleanAbs y <+: cleanAbs x := by simpa using h2
        obtain ⟨t, ht⟩ := hpre
        have hdrop : (cleanAbs x).drop (cleanAbs y).length = t := by
          rw [← ht, List.drop_left]
        refine ⟨t, ht.symm, ?_⟩
        by_cases h4 : (cleanAbs y).length < (cleanAbs x).length
        · right
          by_contra hhead
          rw [if_pos] at h
          · exact Bool.noConfusion h
          · simp only [Bool.and_eq_true, decide_eq_true_eq,
              Bool.not_eq_true', decide_eq_false_iff_not]
            exact ⟨h4, by rw [hdrop]; exact hhead⟩
        · left
          have hnil : (cleanAbs x).drop (cleanAbs y).length = [] :=
            List.drop_eq_nil_of_le (not_lt.1 h4)
          rw [← hdrop, hnil]
      · have h2f : (cleanAbs y).isPrefixOf (cleanAbs x) = false :=
          Bool.eq_false_iff.mpr h2
        rw [if_pos (by simp [h2f])] at h
        exact Bool.noConfusion h
  · rintro ⟨t, ht, hcase⟩
    have hlen : ¬ (cleanAbs x).length < (cleanAbs y).length := by
      rw [ht, List.length_append]
      omega
    rw [if_neg hlen]
    have hpre : (cleanAbs y).isPrefixOf (cleanAbs x) = true := by
      simpa using (⟨t, ht.symm⟩ : cleanAbs y <+: cleanAbs x)
    rw [if_neg (by simp [hpre])]
    have hdrop : (cleanAbs x).drop (cleanAbs y).length = t := by
      rw [ht, List.drop_left]
    rcases hcase with rfl | hhead
    · have hc : ¬((decide ((cleanAbs y).length < (cleanAbs x).length) &&
          !decide (((cleanAbs x).drop (cleanAbs y).length).head? =
            some '/')) = true) := by
        simp only [Bool.and_eq_true, decide_eq_true_eq, not_and]
        intro h4 _
        rw [ht, List.append_nil] at h4
        exact absurd h4 (lt_irrefl _)
      rw [if_neg hc]
    · have hc : ¬((decide ((cleanAbs y).length < (cleanAbs x).length) &&
          !decide (((cleanAbs x).drop (cleanAbs y).length).head? =
            some '/')) = true) := by
        simp only [Bool.and_eq_true, decide_eq_true_eq,
          Bool.not_eq_true', decide_eq_false_iff_not, not_and]
        intro _ hne
        exact hne (by rw [hdrop]; exact hhead)
      rw [if_neg hc]

/-- Auxiliary: the folder-deletion pass keeps every chunk of a path that
does not lie under the deleted folder. -/
theorem fold_delFolder_filter_chunks (folder fp q : Str)
    (hq : hasPrefix q fp = false) (qs : List Str) :
    ∀ st : IndexState,
      ((qs.foldl (fun st2 q2 =>
          if hasPrefix q2 fp = true then
            removeFileHash folder q2 (deleteFileChunks q2 st2)
          else st2) st).chunks.filter fun c => decide (c.filePath = q)) =
        st.chunks.filter fun c => decide (c.filePath = q) := by
  induction qs with
  | nil => intro st; rfl
  | cons a t ih =>
    intro st
    rw [List.foldl_cons, ih]
    by_cases ha : hasPrefix a fp = true
    · rw [if_pos ha]
      have hne : ¬ a = q := by
        intro he
        rw [he, hq] at ha
        exact Bool.noConfusion ha
      have hne2 : ¬ q = a := fun he => hne he.symm
      rw [chunks_removeFileHash]
      show ((st.chunks.filter fun c => !decide (c.filePath = a)).filter
          fun c => decide (c.filePath = q)) =
        st.chunks.filter fun c => decide (c.filePath = q)
      rw [List.filter_filter]
      apply List.filter_congr
      intro c _
      by_cases hc : c.filePath = q
      · simp [hc, hne, hne2]
      · simp [hc]
    · rw [if_neg ha]

/-- Auxiliary: the folder-deletion pass keeps every hash row of a path
that does not lie under the deleted folder. -/
theorem fold_delFolder_filter_hashes (folder fp q : Str)
    (hq : hasPrefix q fp = false) (qs : List Str) :
    ∀ st : IndexState,
      ((qs.foldl (fun st2 q2 =>
          if hasPrefix q2 fp = true then
            removeFileHash folder q2 (deleteFileChunks q2 st2)
          else st2) st).hashes.filter fun r => decide (r.file_path = q)) =
        st.hashes.filter fun r => decide (r.file_path = q) := by
  induction qs with
  | nil => intro st; rfl
  | cons a t ih =>
    intro st
    rw [List.foldl_cons, ih]
    by_cases ha : hasPrefix a fp = true
    · rw [if_pos ha]
      have hne : ¬ a = q := by
        intro he
        rw [he, hq] at ha
        exact Bool.noConfusion ha
      have hne2 : ¬ q = a := fun he => hne he.symm
      show ((st.hashes.filter fun r =>
          !(decide (r.project_path = folder) && decide (r.file_path = a))).filter
          fun r => decide (r.file_path = q)) =
        st.hashes.filter fun r => decide (r.file_path = q)
      rw [List.filter_filter]
      apply List.filter_congr
      intro r _
      by_cases hr : r.file_path = q
      · simp [hr, hne, hne2]
      · simp [hr]
    · rw [if_neg ha]

/-- C10: DeleteFolder removes chunk rows and hash rows only for files
whose absolute path equals the folder or lies beneath it with a
path-separator boundary (the `hasPrefix` test, characterized in the last
conjunct); every file of any other path — including a sibling directory
whose name merely extends the folder's name — keeps exactly its chunk rows
and hash rows. -/
theorem deleteFolder_frame (s : IndexState) (fp q : Str)
    (hq : hasPrefix q fp = false) :
    ((deleteFolderOp fp s).chunks.filter
        fun c => decide (c.filePath = q)) =
      (s.chunks.filter fun c => decide (c.filePath = q)) ∧
    ((deleteFolderOp fp s).hashes.filter
        fun r => decide (r.file_path = q)) =
      (s.hashes.filter fun r => decide (r.file_path = q)) ∧
    (∀ x y : Str, hasPrefix x y = true ↔
      ∃ t, cleanAbs x = cleanAbs y ++ t ∧
        (t = [] ∨ t.head? = some '/')) := by
  refine ⟨?_, ?_, hasPrefix_iff⟩
  · unfold deleteFolderOp
    cases hfind : (listIndexedFolders s).find? fun folder => hasPrefix fp folder with
    | none => rfl
    | some folder => exact fold_delFolder_filter_chunks folder fp q hq _ s
  · unfold deleteFolderOp
    cases hfind : (listIndexedFolders s).find? fun folder => hasPrefix fp folder with
    | none => rfl
    | some folder => exact fold_delFolder_filter_hashes folder fp q hq _ s

/-- Witness: deleting "/a/b" leaves the file of the sibling "/a/bc"
untouched in both tables. -/
theorem deleteFolder_frame_witness :
    hasPrefix (str "/a/bc/f.txt") (str "/a/b") = false ∧
      (((deleteFolderOp (str "/a/b") cexDelState).chunks.filter
          fun c => decide (c.filePath = str "/a/bc/f.txt")) =
        (cexDelState.chunks.filter
          fun c => decide (c.filePath = str "/a/bc/f.txt")) ∧
      ((deleteFolderOp (str "/a/b") cexDelState).hashes.filter
          fun r => decide (r.file_path = str "/a/bc/f.txt")) =
        (cexDelState.hashes.filter
          fun r => decide (r.file_path = str "/a/bc/f.txt")) ∧
      (∀ x y : Str, hasPrefix x y = true ↔
        ∃ t, cleanAbs x = cleanAbs y ++ t ∧
          (t = [] ∨ t.head? = some '/'))) :=
  ⟨by decide,
   deleteFolder_frame cexDelState (str "/a/b") (str "/a/bc/f.txt")
     (by decide)⟩
